import Mathlib

set_option maxRecDepth 8000

/-!
Verification development for the ULedger go-sdk payload-commitment core and
its typed binary codec.  The Go sources under `pkg/transaction` and
`pkg/crypto` are shallowly embedded: Go byte slices become `List Nat`
(entries < 256 in any real buffer), Go `int`/`uint32`/`uint64` arithmetic
becomes `Nat` arithmetic with explicit `% 2^32` / `% 2^64` where Go
truncates, and fallible Go calls return `GoRes` - distinguishing a returned
`error` from a runtime fault (out-of-range slice, negative `make`, division
by zero), which aborts the whole call.
-/

/-- Error kinds produced by the embedded functions, mirroring the distinct
`fmt.Errorf` sites of the source (the formatted message text is dropped). -/
inductive GoErr where
  | tooShort
  | lengthMismatch
  | keyNotString
  | unsupportedType
  | sizeBound
  | shapeMismatch
  | proofInvalid
  | hashLen
deriving DecidableEq

/-- Outcome of a fallible Go call: a value, a returned `error`, or a runtime
fault (`crash` models a Go panic: out-of-range slice/index, negative `make`,
division by zero). -/
inductive GoRes (α : Type) where
  | crash
  | err (e : GoErr)
  | ok (a : α)
deriving DecidableEq

/-- Functorial action on the `ok` branch of a `GoRes`. -/
def GoRes.map {α β : Type} (f : α → β) : GoRes α → GoRes β
  | .crash => .crash
  | .err e => .err e
  | .ok a => .ok (f a)

/-- Big-endian 32-bit value of four bytes (`binary.BigEndian.Uint32`). -/
def be32 (a b c d : Nat) : Nat :=
  ((a * 256 + b) * 256 + c) * 256 + d

/-- Big-endian 64-bit value of eight bytes (`binary.BigEndian.Uint64`). -/
def be64 (a b c d e f g h : Nat) : Nat :=
  ((((((a * 256 + b) * 256 + c) * 256 + d) * 256 + e) * 256 + f) * 256 + g) * 256 + h

/-- Bytes written by `binary.BigEndian.PutUint32` (the value is truncated
to 32 bits, as the Go `uint32` conversion does). -/
def putUint32 (n : Nat) : List Nat :=
  [n / 2 ^ 24 % 256, n / 2 ^ 16 % 256, n / 2 ^ 8 % 256, n % 256]

/-- Bytes written by `binary.BigEndian.PutUint64` / `binary.Write` of a
`uint64`. -/
def putUint64 (n : Nat) : List Nat :=
  [n / 2 ^ 56 % 256, n / 2 ^ 48 % 256, n / 2 ^ 40 % 256, n / 2 ^ 32 % 256,
   n / 2 ^ 24 % 256, n / 2 ^ 16 % 256, n / 2 ^ 8 % 256, n % 256]

/-- Go slice expression `data[a:b]`: defined (as `some`) exactly when
`a <= b <= len(data)`; otherwise Go panics (`none`). -/
def sliceGo (data : List Nat) (a b : Nat) : Option (List Nat) :=
  if a ≤ b ∧ b ≤ data.length then some ((data.drop a).take (b - a)) else none

/-- Read `binary.BigEndian.Uint32(data[off:off+4])`: `none` when the slice
is out of range (Go panic). -/
def readBE32 (data : List Nat) (off : Nat) : Option Nat :=
  if off + 4 ≤ data.length then
    match data.drop off with
    | a :: b :: c :: d :: _ => some (be32 a b c d)
    | _ => none
  else none

/-!
Typed binary codec (`pkg/transaction/serializer.go`).

The Go codec works on `interface{}` values; the closed set of runtime types
it supports is embedded as the inductive `Value`.  Go strings are carried as
their UTF-8 byte lists; `int32`/`int64` and `float32`/`float64` are carried
as their 32/64-bit two's-complement / IEEE-754 bit patterns (the codec only
transports bits and never computes with them); a `map[string]interface{}` is
carried as an association list (a Go map has no duplicate keys, so theorems
about maps carry a `Nodup` hypothesis on the keys).
-/

inductive Value where
  | null
  | bool (b : Bool)
  | int32 (bits : Nat)
  | int64 (bits : Nat)
  | str (bytes : List Nat)
  | bytes (bs : List Nat)
  | array (elems : List Value)
  | map (entries : List (List Nat × Value))
  | float32 (bits : Nat)
  | float64 (bits : Nat)

/-- Byte-wise lexicographic order on byte strings: exactly the order of Go's
`sort.Strings` (Go string comparison is byte-wise lexicographic). -/
def lexLe : List Nat → List Nat → Bool
  | [], _ => true
  | _ :: _, [] => false
  | a :: as, b :: bs => if a < b then true else if b < a then false else lexLe as bs

/-- Insert one (key, encoded entry bytes) pair into a list sorted by `lexLe`
on the keys. -/
def insertPair (e : List Nat × List Nat) : List (List Nat × List Nat) → List (List Nat × List Nat)
  | [] => [e]
  | f :: rest => if lexLe e.1 f.1 then e :: f :: rest else f :: insertPair e rest

/-- Sort (key, encoded entry bytes) pairs by byte-wise ascending key order.
The Go source sorts the key slice with `sort.Strings` and then encodes each
key's entry in that order; since encoding a fixed entry is a function of the
entry alone, sorting the already-encoded pairs by key yields the same byte
sequence (Go maps have no duplicate keys). -/
def sortPairs (ps : List (List Nat × List Nat)) : List (List Nat × List Nat) :=
  ps.foldr insertPair []

/-- Encoding of a string value (tag 4), shared by `Encode` and by the map
case for keys. -/
def encodeStr (s : List Nat) : List Nat :=
  4 :: (putUint32 s.length ++ s)

mutual

/-- Embedding of `transaction.Encode` (serializer.go).  Each branch emits the
tag byte, a 4-byte big-endian length (element count for containers, followed
by a 4-byte total body size), then the body, exactly as the source does.
Inputs outside the supported kinds (the Go `unsupported type` error) are not
representable in `Value`, so the embedding is total. -/
def Encode : Value → List Nat
  | .null => [0, 0, 0, 0, 0]
  | .bool b => [1, 0, 0, 0, 1] ++ [if b then 1 else 0]
  | .int32 n => 2 :: (putUint32 4 ++ putUint32 n)
  | .int64 n => 3 :: (putUint32 8 ++ putUint64 n)
  | .str s => encodeStr s
  | .bytes s => 5 :: (putUint32 s.length ++ s)
  | .array vs => 6 :: (putUint32 vs.length ++ putUint32 (encodeItems vs).length ++ encodeItems vs)
  | .map es =>
      7 :: (putUint32 es.length
        ++ putUint32 (((sortPairs (encodePairs es)).map Prod.snd).flatten).length
        ++ ((sortPairs (encodePairs es)).map Prod.snd).flatten)
  | .float32 n => 8 :: (putUint32 4 ++ putUint32 n)
  | .float64 n => 9 :: (putUint32 8 ++ putUint64 n)

/-- Concatenated encodings of arrays' elements, in order. -/
def encodeItems : List Value → List Nat
  | [] => []
  | v :: vs => Encode v ++ encodeItems vs

/-- Per-entry map encodings (key, encoded key ++ encoded value), in original
entry order; `Encode`'s map case sorts these by key before concatenating. -/
def encodePairs : List (List Nat × Value) → List (List Nat × List Nat)
  | [] => []
  | (k, v) :: es => (k, encodeStr k ++ Encode v) :: encodePairs es

end

/-- Go map assignment `result[key] = v` on the association-list model:
overwrite an existing binding, otherwise append. -/
def mapInsert (acc : List (List Nat × Value)) (k : List Nat) (v : Value) :
    List (List Nat × Value) :=
  match acc with
  | [] => [(k, v)]
  | (k', v') :: rest => if k' = k then (k, v) :: rest else (k', v') :: mapInsert rest k v

/-- Map-decoding loop of `Decode` (tag 7), parameterized by the decoder used
for children.  Per entry it reads `data[offset+1:offset+5]` as the child's
size, slices `data[offset:offset+5+size]`, decodes it, and advances by
`5+size` - for key and value alike, exactly as the source does. -/
def decodeMapLoop (dec : List Nat → GoRes Value) (data : List Nat) :
    Nat → Nat → List (List Nat × Value) → GoRes Value
  | 0, _, acc => .ok (.map acc)
  | count + 1, offset, acc =>
    match readBE32 data (offset + 1) with
    | none => .crash
    | some keySize =>
      match sliceGo data offset (offset + 5 + keySize) with
      | none => .crash
      | some keyBuf =>
        match dec keyBuf with
        | .crash => .crash
        | .err e => .err e
        | .ok keyV =>
          match keyV with
          | .str k =>
            match readBE32 data (offset + 5 + keySize + 1) with
            | none => .crash
            | some valSize =>
              match sliceGo data (offset + 5 + keySize) (offset + 5 + keySize + 5 + valSize) with
              | none => .crash
              | some valBuf =>
                match dec valBuf with
                | .crash => .crash
                | .err e => .err e
                | .ok v =>
                  decodeMapLoop dec data count (offset + 5 + keySize + 5 + valSize)
                    (mapInsert acc k v)
          | _ => .err .keyNotString

/-- Array-decoding loop of `Decode` (tag 6), same child-size convention as
the map loop. -/
def decodeArrayLoop (dec : List Nat → GoRes Value) (data : List Nat) :
    Nat → Nat → List Value → GoRes Value
  | 0, _, acc => .ok (.array acc)
  | count + 1, offset, acc =>
    match readBE32 data (offset + 1) with
    | none => .crash
    | some valSize =>
      match sliceGo data offset (offset + 5 + valSize) with
      | none => .crash
      | some valBuf =>
        match dec valBuf with
        | .crash => .crash
        | .err e => .err e
        | .ok v => decodeArrayLoop dec data count (offset + 5 + valSize) (acc ++ [v])

/-- Fuel-indexed embedding of `transaction.Decode` (serializer.go).  The fuel
only bounds the recursion into container children; every child buffer is at
least 9 bytes shorter than its parent, so the fuel `data.length + 1` used by
`Decode` below can never run out on a reachable call. -/
def decodeF : Nat → List Nat → GoRes Value
  | 0, _ => .crash
  | fuel + 1, data =>
    match data with
    | t :: l0 :: l1 :: l2 :: l3 :: body =>
      let length := be32 l0 l1 l2 l3
      match t with
      | 0 => .ok .null
      | 1 =>
        if length ≠ 1 then .err .lengthMismatch
        else
          match body with
          | x :: _ => .ok (.bool (x != 0))
          | [] => .crash
      | 2 =>
        if length ≠ 4 then .err .lengthMismatch
        else
          match body with
          | a :: b :: c :: d :: _ => .ok (.int32 (be32 a b c d))
          | _ => .crash
      | 3 =>
        if length ≠ 8 then .err .lengthMismatch
        else
          match body with
          | a :: b :: c :: d :: e :: f :: g :: h :: _ => .ok (.int64 (be64 a b c d e f g h))
          | _ => .crash
      | 4 =>
        if length ≠ body.length % 2 ^ 32 then .err .lengthMismatch else .ok (.str body)
      | 5 =>
        if length ≠ body.length % 2 ^ 32 then .err .lengthMismatch else .ok (.bytes body)
      | 8 =>
        if length ≠ 4 then .err .lengthMismatch
        else
          match body with
          | a :: b :: c :: d :: _ => .ok (.float32 (be32 a b c d))
          | _ => .crash
      | 9 =>
        if length ≠ 8 then .err .lengthMismatch
        else
          match body with
          | a :: b :: c :: d :: e :: f :: g :: h :: _ => .ok (.float64 (be64 a b c d e f g h))
          | _ => .crash
      | 7 =>
        match body with
        | s0 :: s1 :: s2 :: s3 :: _ =>
          if data.length < 9 + be32 s0 s1 s2 s3 then .err .tooShort
          else decodeMapLoop (decodeF fuel) data length 9 []
        | _ => .crash
      | 6 =>
        match body with
        | s0 :: s1 :: s2 :: s3 :: _ =>
          if data.length < 9 + be32 s0 s1 s2 s3 then .err .tooShort
          else decodeArrayLoop (decodeF fuel) data length 9 []
        | _ => .crash
      | _ => .err .unsupportedType
    | _ => .err .tooShort

/-- Embedding of `transaction.Decode`: `decodeF` with enough fuel for any
nesting the buffer could hold. -/
def Decode (data : List Nat) : GoRes Value :=
  decodeF (data.length + 1) data

/-!
Chunked field-element Merkle commitment builder
(`pkg/transaction/transaction.go`).

The tree construction and verification themselves live in the dependency
`gnark-crypto/accumulator/merkletree` (not under src/); they are modelled
below from the spec's description of that boundary (build a Merkle tree over
fixed-size segments with the supplied hash, return the root, the inclusion
proof for one index and the number of leaves; verification recomputes the
root from the leaf data and the sibling hashes).  The hash function is
abstract: `hasher.Reset(); Write(x1)...Write(xn); Sum(nil)` is modelled as
`H (x1 ++ ... ++ xn)`.
-/

/-- Hash of a leaf segment (gnark-crypto's `leafSum`, which has no domain
separation: it hashes the raw segment). -/
def leafSum (H : List Nat → List Nat) (d : List Nat) : List Nat := H d

/-- Hash of two child digests (gnark-crypto's `nodeSum`: hash of the
concatenation, no domain separation). -/
def nodeSum (H : List Nat → List Nat) (a b : List Nat) : List Nat := H (a ++ b)

/-- Byte length of `(*big.Int).Bytes()`: minimal big-endian width of `n`.
The fuel 128 covers any modulus below `2^1024`, far above both curve moduli
used by the source. -/
def natBytesLenAux : Nat → Nat → Nat
  | 0, _ => 0
  | fuel + 1, n => if n = 0 then 0 else natBytesLenAux fuel (n / 256) + 1

/-- Byte length of a modulus as Go's `len(modulus.Bytes())` computes it. -/
def natBytesLen (n : Nat) : Nat := natBytesLenAux 128 n

/-- Floor of the base-2 logarithm (fuel-indexed so it evaluates in the
kernel); `log2Aux n n` is exact for every `n`. -/
def log2Aux : Nat → Nat → Nat
  | 0, _ => 0
  | fuel + 1, n => if 2 ≤ n then log2Aux fuel (n / 2) + 1 else 0

/-- Floor of the base-2 logarithm of `n`. -/
def log2Nat (n : Nat) : Nat := log2Aux n n

/-- Split a byte stream into consecutive `seg`-byte segments, as the
reader loop of `merkletree.BuildReaderProof` consumes it.  In every call
made by the source the buffer length is an exact multiple of `seg`. -/
def chunkify (seg : Nat) : Nat → List Nat → List (List Nat)
  | 0, _ => []
  | fuel + 1, data =>
    if data = [] then [] else
    if seg = 0 then [] else
    data.take seg :: chunkify seg fuel (data.drop seg)

/-- Modelled from the spec: root of a perfect Merkle subtree over `2^d`
leaf segments (gnark-crypto `merkletree`, a dependency not under src/). -/
def merkleRootPd (H : List Nat → List Nat) : Nat → List (List Nat) → List Nat
  | 0, ls => leafSum H (ls.headD [])
  | d + 1, ls => nodeSum H (merkleRootPd H d (ls.take (2 ^ d))) (merkleRootPd H d (ls.drop (2 ^ d)))

/-- Leaf segment at position `idx` of a perfect `2^d`-leaf tree. -/
def leafData : Nat → Nat → List (List Nat) → List Nat
  | 0, _, ls => ls.headD []
  | d + 1, idx, ls =>
    if idx < 2 ^ d then leafData d idx (ls.take (2 ^ d))
    else leafData d (idx - 2 ^ d) (ls.drop (2 ^ d))

/-- Sibling subtree digests along the path from leaf `idx` to the root of a
perfect `2^d`-leaf tree, bottom-up. -/
def sibs (H : List Nat → List Nat) : Nat → Nat → List (List Nat) → List (List Nat)
  | 0, _, _ => []
  | d + 1, idx, ls =>
    if idx < 2 ^ d then sibs H d idx (ls.take (2 ^ d)) ++ [merkleRootPd H d (ls.drop (2 ^ d))]
    else sibs H d (idx - 2 ^ d) (ls.drop (2 ^ d)) ++ [merkleRootPd H d (ls.take (2 ^ d))]

/-- Modelled from the spec: inclusion proof of gnark-crypto's tree for a
perfect `2^d`-leaf tree - the raw leaf data at `idx` followed by the sibling
digests bottom-up. -/
def merkleProofP (H : List Nat → List Nat) (d idx : Nat) (ls : List (List Nat)) :
    List (List Nat) :=
  leafData d idx ls :: sibs H d idx ls

/-- Modelled from the spec: root over an arbitrary number of leaves.  The
library's incremental stack groups the leaves into maximal perfect subtrees
of strictly decreasing size (the binary decomposition of the leaf count) and
joins them largest-first: `root = node(S_big, root(rest))`. -/
def merkleRootN (H : List Nat → List Nat) : Nat → List (List Nat) → List Nat
  | 0, ls => leafSum H (ls.headD [])
  | fuel + 1, ls =>
    let d := log2Nat ls.length
    if ls.length = 2 ^ d then merkleRootPd H d ls
    else nodeSum H (merkleRootPd H d (ls.take (2 ^ d))) (merkleRootN H fuel (ls.drop (2 ^ d)))

/-- Modelled from the spec: inclusion proof over an arbitrary number of
leaves - the path inside the maximal perfect subtree containing `idx`,
followed by the joined digest of everything to its right, then the digests
of the perfect subtrees to its left. -/
def merkleProofN (H : List Nat → List Nat) : Nat → Nat → List (List Nat) → List (List Nat)
  | 0, _, ls => [ls.headD []]
  | fuel + 1, idx, ls =>
    let d := log2Nat ls.length
    if ls.length = 2 ^ d then merkleProofP H d idx ls
    else if idx < 2 ^ d then
      merkleProofP H d idx (ls.take (2 ^ d)) ++ [merkleRootN H fuel (ls.drop (2 ^ d))]
    else merkleProofN H fuel (idx - 2 ^ d) (ls.drop (2 ^ d)) ++ [merkleRootPd H d (ls.take (2 ^ d))]

/-- Modelled from the spec: `merkletree.BuildReaderProof` - split the buffer
into `segmentSize`-byte leaves and return (root, inclusion proof for
`proofIndex`, leaf count).  An empty stream yields a `nil` root (`none`) and
an empty proof, which `VerifyProof` rejects; a `proofIndex` beyond the leaf
count yields an empty proof set. -/
def BuildReaderProof (H : List Nat → List Nat) (buf : List Nat)
    (segmentSize proofIndex : Nat) : Option (List Nat) × List (List Nat) × Nat :=
  let leaves := chunkify segmentSize buf.length buf
  match leaves with
  | [] => (none, [], 0)
  | _ :: _ =>
    (some (merkleRootN H leaves.length leaves),
     if proofIndex < leaves.length then merkleProofN H leaves.length proofIndex leaves else [],
     leaves.length)

/-- Final fold of `merkletree.VerifyProof`: the remaining proof entries are
left siblings, combined as `sum = nodeSum(p, sum)`. -/
def verifyRest (H : List Nat → List Nat) (sum : List Nat) : List (List Nat) → List Nat
  | [] => sum
  | p :: rest => verifyRest H (nodeSum H p sum) rest

/-- Main loop of `merkletree.VerifyProof` (gnark-crypto, from the
NebulousLabs tree): while the `2^height`-aligned subtree around `proofIndex`
lies inside the leaf range, combine with the sibling on the side given by
the index bit; on break, if the last stable subtree does not end at the last
leaf, absorb one right sibling, then fold the remaining left siblings.
Returns `none` where the Go code returns `false` for a too-short proof set. -/
def verifyPhase1 (H : List Nat → List Nat) (idx numLeaves : Nat) :
    Nat → Nat → List Nat → List (List Nat) → Option (List Nat)
  | height, stableEnd, sum, rest =>
    let start := idx / 2 ^ height * 2 ^ height
    let endI := start + 2 ^ height - 1
    if endI ≥ numLeaves then
      if stableEnd ≠ numLeaves - 1 then
        match rest with
        | [] => none
        | p :: rest' => some (verifyRest H (nodeSum H sum p) rest')
      else some (verifyRest H sum rest)
    else
      match rest with
      | [] => none
      | p :: rest' =>
        let sum' := if idx - start < 2 ^ (height - 1) then nodeSum H sum p else nodeSum H p sum
        verifyPhase1 H idx numLeaves (height + 1) endI sum' rest'

/-- Plain bottom-up fold of the sibling digests, combining on the side given
by the index bit at each height; on perfect trees `verifyPhase1` computes
exactly this fold. -/
def foldProof (H : List Nat → List Nat) (idx : Nat) :
    Nat → List Nat → List (List Nat) → List Nat
  | _, sum, [] => sum
  | height, sum, p :: rest =>
    let start := idx / 2 ^ height * 2 ^ height
    let sum' := if idx - start < 2 ^ (height - 1) then nodeSum H sum p else nodeSum H p sum
    foldProof H idx (height + 1) sum' rest

/-- Embedding of `merkletree.VerifyProof`: `false` on a `nil` root, an index
beyond the leaf count, or an empty/short proof set; otherwise recompute the
root from the leaf data and sibling digests and compare. -/
def VerifyProof (H : List Nat → List Nat) (root : Option (List Nat))
    (proofSet : List (List Nat)) (proofIndex numLeaves : Nat) : Bool :=
  match root with
  | none => false
  | some r =>
    if proofIndex ≥ numLeaves then false
    else
      match proofSet with
      | [] => false
      | p0 :: rest =>
        match verifyPhase1 H proofIndex numLeaves 1 proofIndex (leafSum H p0) rest with
        | none => false
        | some sum => sum == r

/-- Collect a list of optional results, failing (Go panic) on the first
`none`. -/
def sequenceOpt {α : Type} : List (Option α) → Option (List α)
  | [] => some []
  | none :: _ => none
  | some a :: rest => (sequenceOpt rest).map (fun l => a :: l)

/-- Leaf slot `i` written by `GenerateMerkleTreeWithHardBound`'s loop
(transaction.go).  A covered slot starts from `make([]byte, chunkSize)`
(that many zero bytes), appends the raw payload chunk, then appends
`make([]byte, W - len(chunk))` trailing zeros - `none` models the Go panic
of a negative `make` when `chunkSize + len(chunk) > W`.  An uncovered slot
is the `chunkSize` zeros padded (or not) to `W`; if `chunkSize > W` the
final `buf.Write(make([]byte, W-len(chunk)))` is a negative `make`. -/
def hardBoundLeaf (payload : List Nat) (chunkSize W i : Nat) : Option (List Nat) :=
  let start := i * chunkSize
  if start < payload.length then
    let endI := min (start + chunkSize) payload.length
    let chunk := List.replicate chunkSize 0 ++ (payload.drop start).take (endI - start)
    if chunk.length ≤ W then some (chunk ++ List.replicate (W - chunk.length) 0) else none
  else
    if chunkSize < W then some (List.replicate chunkSize 0 ++ List.replicate (W - chunkSize) 0)
    else if chunkSize = W then some (List.replicate chunkSize 0)
    else none

/-- Proof chunk captured by the hard-bound loop at `i = proofIndex`: for a
covered slot the copy is taken after the in-branch padding (so it is the
whole `W`-byte leaf); for an uncovered slot it is taken before the padding
(just the `chunkSize` zeros). -/
def hardBoundProofChunk (payload : List Nat) (chunkSize W idx : Nat) : List Nat :=
  let start := idx * chunkSize
  if start < payload.length then
    let endI := min (start + chunkSize) payload.length
    let chunk := List.replicate chunkSize 0 ++ (payload.drop start).take (endI - start)
    chunk ++ List.replicate (W - chunk.length) 0
  else List.replicate chunkSize 0

/-- Embedding of `transaction.GenerateMerkleTreeWithHardBound`: reject
payloads beyond `chunkSize * 2^depth`, write all `2^depth` leaf slots,
build the tree over `modulusSizeBytes`-byte segments, require exactly
`2^depth` leaves, and self-verify the proof before returning. -/
def GenerateMerkleTreeWithHardBound (H : List Nat → List Nat) (payload : List Nat)
    (modulus chunkSize depth proofIndex : Nat) :
    GoRes (List Nat × List (List Nat) × List Nat × Nat) :=
  if payload.length > chunkSize * 2 ^ depth then .err .sizeBound
  else
    let W := natBytesLen modulus
    match sequenceOpt ((List.range (2 ^ depth)).map (hardBoundLeaf payload chunkSize W)) with
    | none => .crash
    | some leaves =>
      let res := BuildReaderProof H leaves.flatten W proofIndex
      if res.2.2 ≠ 2 ^ depth then .err .shapeMismatch
      else if VerifyProof H res.1 res.2.1 proofIndex res.2.2 = false then .err .proofInvalid
      else
        match res.1 with
        | none => .err .proofInvalid
        | some root =>
          .ok (root, res.2.1,
            (if proofIndex < 2 ^ depth then hardBoundProofChunk payload chunkSize W proofIndex
             else []),
            res.2.2)

/-- Leaf `i` written by the exact-mode `GenerateMerkleTree` loop: the raw
chunk left-padded with `make([]byte, W - len(chunk))` leading zeros; `none`
models the negative-`make` panic when the chunk exceeds `W`. -/
def exactLeaf (payload : List Nat) (chunkSize W i : Nat) : Option (List Nat) :=
  let start := i * chunkSize
  let endI := min (start + chunkSize) payload.length
  let chunk := (payload.drop start).take (endI - start)
  if chunk.length ≤ W then some (List.replicate (W - chunk.length) 0 ++ chunk) else none

/-- Embedding of `transaction.GenerateMerkleTree` (exact mode):
`ceil(len/chunkSize)` left-padded leaves, no size bound, self-verified
proof, and the tree depth `int(math.Log2(numLeaves))` (exact for the
power-of-two leaf counts the float computation rounds correctly).
`chunkSize = 0` is the Go division by zero. -/
def GenerateMerkleTree (H : List Nat → List Nat) (payload : List Nat)
    (modulus chunkSize proofIndex : Nat) :
    GoRes (List Nat × List (List Nat) × List Nat × Nat × Nat) :=
  if chunkSize = 0 then .crash
  else
    let W := natBytesLen modulus
    let nrLeaves := (payload.length + chunkSize - 1) / chunkSize
    match sequenceOpt ((List.range nrLeaves).map (exactLeaf payload chunkSize W)) with
    | none => .crash
    | some leaves =>
      let res := BuildReaderProof H leaves.flatten W proofIndex
      if VerifyProof H res.1 res.2.1 proofIndex res.2.2 = false then .err .proofInvalid
      else
        match res.1 with
        | none => .err .proofInvalid
        | some root =>
          .ok (root, res.2.1,
            (if proofIndex < nrLeaves then (exactLeaf payload chunkSize W proofIndex).getD []
             else []),
            res.2.2, log2Nat res.2.2)

/-!
Signature commitment assembler (`pkg/transaction/transaction.go`) and the
per-algorithm curve selection (`pkg/crypto/key.go`).
-/

/-- Protocol constant `CHUNK_SIZE` (transaction.go). -/
def CHUNK_SIZE : Nat := 16

/-- Protocol constant `DEPTH` (transaction.go). -/
def DEPTH : Nat := 6

/-- Scalar field modulus of BN254 (`ecc.BN254.ScalarField()`), the
`ECDSA_CURVE` of transaction.go. -/
def ECDSA_CURVE : Nat :=
  0x30644e72e131a029b85045b68181585d2833e84879b9709143e1f593f0000001

/-- Scalar field modulus of BW6-761 (`ecc.BW6_761.ScalarField()`), the
`BLS_CURVE` of transaction.go. -/
def BLS_CURVE : Nat :=
  0x01ae3a4617c510eac63b05c06ca1493b1a22d9f300f5138f1ef3622fba094800170b5d44300000008508c00000000001

/-- Key-type constants of `crypto.KeyType` (a Go `int`). -/
def KeyTypeSecp256k1 : Int := 0

/-- `crypto.KeyTypeMlDSA87`. -/
def KeyTypeMlDSA87 : Int := 1

/-- `crypto.KeyTypeED25519`. -/
def KeyTypeED25519 : Int := 2

/-- `crypto.KeyTypeBLS12377`. -/
def KeyTypeBLS12377 : Int := 3

/-- The `switch t.KeyType` performed identically inside both
`GetSignatureCommitment` and `GetUnboundCommitment`: `BLS_CURVE` for
`KeyTypeBLS12377`, `ECDSA_CURVE` for every other value (the `default`
branch). -/
def fieldForKeyType (kt : Int) : Nat :=
  if kt = KeyTypeBLS12377 then BLS_CURVE else ECDSA_CURVE

/-- The two curve-native hashers `crypto.GetHasherByType` can return. -/
inductive Hasher where
  | mimcBN254
  | mimcBW6_761
deriving DecidableEq

/-- Embedding of `crypto.GetHasherByType` (key.go): MiMC over BW6-761 for
`KeyTypeBLS12377`, MiMC over BN254 for `KeyTypeSecp256k1` and for every
other value via the `default` branch. -/
def GetHasherByType (kt : Int) : Hasher :=
  if kt = KeyTypeSecp256k1 then .mimcBN254
  else if kt = KeyTypeBLS12377 then .mimcBW6_761
  else .mimcBN254

/-- Embedding of `transaction.splitHash32`, with the SHA-256 digest function
abstracted as `sha` (the real `sha256.Sum256` always returns 32 bytes, which
is what the length guard checks). -/
def splitHash32 (sha : List Nat → List Nat) (s : List Nat) :
    Option (List Nat × List Nat) :=
  if (sha s).length = 32 then some ((sha s).take 16, (sha s).drop 16) else none

/-- Fields of `transaction.ULTransactionInput` used by the commitment
pipeline.  Go strings are byte lists; `fromAddr`/`toAddr` are the Go fields
`From`/`To` (`from` and `to` are reserved in Lean); `senderTimestamp` is the `uint64` value of
`SenderTimestamp.Unix()`. -/
structure ULTransactionInput where
  blockchainId : List Nat
  toAddr : List Nat
  fromAddr : List Nat
  payload : List Nat
  payloadType : List Nat
  suggestor : List Nat
  senderTimestamp : Nat
  keyType : Int
deriving DecidableEq

/-- Embedding of `transaction.TransactionCommitment`. -/
structure TransactionCommitment where
  blockchainIdHigh : List Nat
  blockchainIdLow : List Nat
  fromHigh : List Nat
  fromLow : List Nat
  toHigh : List Nat
  toLow : List Nat
  payloadRoot : List Nat
  timestamp : Nat
  suggestorHigh : List Nat
  suggestorLow : List Nat
  proofElements : List (List Nat)
  chunkIndex : Int
  numLeaves : Nat
  chunkSize : Nat
  proofChunk : List Nat
  depth : Nat
deriving DecidableEq

/-- Embedding of `(*ULTransactionInput).GetSignatureCommitment`
(transaction.go).  The four identifiers are split via `splitHash32` in
source order, the padding field is selected by the key-type switch, and the
payload commitment is the hard-bound tree with `CHUNK_SIZE`, `DEPTH` and
proof index 0.  The Go `computeRoot` parameter is unused by the source body
and omitted. -/
def GetSignatureCommitment (sha H : List Nat → List Nat) (t : ULTransactionInput) :
    GoRes TransactionCommitment :=
  match splitHash32 sha t.blockchainId with
  | none => .err .hashLen
  | some bp =>
    match splitHash32 sha t.fromAddr with
    | none => .err .hashLen
    | some fp =>
      match splitHash32 sha t.toAddr with
      | none => .err .hashLen
      | some tp =>
        match splitHash32 sha t.suggestor with
        | none => .err .hashLen
        | some sp =>
          match GenerateMerkleTreeWithHardBound H t.payload (fieldForKeyType t.keyType)
              CHUNK_SIZE DEPTH 0 with
          | .crash => .crash
          | .err e => .err e
          | .ok res =>
            .ok { blockchainIdHigh := bp.1, blockchainIdLow := bp.2,
                  fromHigh := fp.1, fromLow := fp.2,
                  toHigh := tp.1, toLow := tp.2,
                  timestamp := t.senderTimestamp,
                  suggestorHigh := sp.1, suggestorLow := sp.2,
                  chunkIndex := 0, chunkSize := CHUNK_SIZE, depth := DEPTH,
                  payloadRoot := res.1, proofElements := res.2.1,
                  proofChunk := res.2.2.1, numLeaves := res.2.2.2 }

/-- Embedding of `(*ULTransactionInput).GetUnboundCommitment`: the root of
the exact-mode tree over the payload, with the same key-type field switch. -/
def GetUnboundCommitment (H : List Nat → List Nat) (t : ULTransactionInput) :
    GoRes (List Nat) :=
  match GenerateMerkleTree H t.payload (fieldForKeyType t.keyType) CHUNK_SIZE 0 with
  | .crash => .crash
  | .err e => .err e
  | .ok res => .ok res.1

/-- Embedding of `(*ULTransactionInput).HashSignatureCommitment`: one
`Reset`, ten `Write`s in source order (the timestamp via `binary.Write`
big-endian, 8 bytes), one `Sum(nil)`. -/
def HashSignatureCommitment (H : List Nat → List Nat) (c : TransactionCommitment) :
    List Nat :=
  H (c.blockchainIdHigh ++ c.blockchainIdLow ++ c.fromHigh ++ c.fromLow
     ++ c.toHigh ++ c.toLow ++ c.payloadRoot ++ putUint64 c.timestamp
     ++ c.suggestorHigh ++ c.suggestorLow)

/-- Byte list of `DEPLOY_SMART_CONTRACT.String()`. -/
def strDEPLOY_SMART_CONTRACT : List Nat :=
  [68, 69, 80, 76, 79, 89, 95, 83, 77, 65, 82, 84, 95, 67, 79, 78, 84, 82, 65, 67, 84]

/-- Byte list of `UPGRADE_SMART_CONTRACT.String()`. -/
def strUPGRADE_SMART_CONTRACT : List Nat :=
  [85, 80, 71, 82, 65, 68, 69, 95, 83, 77, 65, 82, 84, 95, 67, 79, 78, 84, 82, 65, 67, 84]

/-- Byte list of `TX_CREATE_WALLET.String()` (`"CREATE_WALLET"`). -/
def strCREATE_WALLET : List Nat :=
  [67, 82, 69, 65, 84, 69, 95, 87, 65, 76, 76, 69, 84]

/-- Byte list of `TX_ALTER_WALLET.String()` (`"ALTER_WALLET"`). -/
def strALTER_WALLET : List Nat :=
  [65, 76, 84, 69, 82, 95, 87, 65, 76, 76, 69, 84]

/-- The session state `GenerateTransaction` reads: the node-derived
suggestor, the wallet address and the wallet key's type. -/
structure SessionWallet where
  suggestor : List Nat
  walletAddress : List Nat
  keyType : Int
deriving DecidableEq

/-- Input mutation performed at the top of
`(*UL_TransactionSession).GenerateTransaction` (transaction_session.go):
attach the session suggestor and current timestamp, overwrite `From` with
the wallet address unless the payload type is `CREATE_WALLET`, and set the
key type from the wallet key. -/
def adjustInput (sess : SessionWallet) (now : Nat) (t : ULTransactionInput) :
    ULTransactionInput :=
  { t with
    suggestor := sess.suggestor,
    senderTimestamp := now,
    fromAddr := if t.payloadType = strCREATE_WALLET then t.fromAddr else sess.walletAddress,
    keyType := sess.keyType }

/-- The bytes `GenerateTransaction` passes to `session.wallet.GetKey().
SignData` (transaction_session.go, up to the signing call; the HTTP exchange
afterwards is outside the core).  `hasherFun` interprets each concrete
hasher `crypto.GetHasherByType` can return as a byte-level hash function. -/
def GenerateTransactionSignedBytes (sha : List Nat → List Nat)
    (hasherFun : Hasher → List Nat → List Nat) (sess : SessionWallet) (now : Nat)
    (t0 : ULTransactionInput) : GoRes (List Nat) :=
  let t := adjustInput sess now t0
  let H := hasherFun (GetHasherByType t.keyType)
  if t.payloadType = strDEPLOY_SMART_CONTRACT ∨ t.payloadType = strUPGRADE_SMART_CONTRACT
      ∨ t.payloadType = strCREATE_WALLET ∨ t.payloadType = strALTER_WALLET then
    GetUnboundCommitment H t
  else
    match GetSignatureCommitment sha H t with
    | .crash => .crash
    | .err e => .err e
    | .ok sc => .ok (HashSignatureCommitment H sc)

/-!
Theorems.  Each claim of the specification is settled by exactly one theorem
below; shared helper lemmas precede them.
-/

/-- C1: evaluation at the failing input.  `Encode` of an array whose single
element is an empty array produces the well-formed wire bytes, but `Decode`
reads the nested child's element-count field as its byte length, slices the
child to 5 bytes, and then the out-of-range read of the child's total-size
field is a Go panic - so `Decode (Encode v)` does not return `v` for values
with container children. -/
theorem C1_nested_roundtrip :
    Encode (Value.array [Value.array []])
      = [6, 0, 0, 0, 1, 0, 0, 0, 9, 6, 0, 0, 0, 0, 0, 0, 0, 0]
    ∧ Decode [6, 0, 0, 0, 1, 0, 0, 0, 9, 6, 0, 0, 0, 0, 0, 0, 0, 0] = .crash :=
  ⟨rfl, rfl⟩

/-- C9: a Bool body byte is decoded with `data[5] != 0`, so any nonzero byte
decodes to `true`, although `Encode` only ever emits body bytes 0 and 1. -/
theorem C9_bool_decode (b : Nat) :
    Decode [1, 0, 0, 0, 1, b] = .ok (.bool (b != 0))
    ∧ (Decode [1, 0, 0, 0, 1, b] = .ok (.bool true) ↔ b ≠ 0)
    ∧ Encode (Value.bool true) = [1, 0, 0, 0, 1, 1]
    ∧ Encode (Value.bool false) = [1, 0, 0, 0, 1, 0] := by
  have h1 : Decode [1, 0, 0, 0, 1, b] = .ok (.bool (b != 0)) := rfl
  refine ⟨h1, ?_, rfl, rfl⟩
  rw [h1]
  simp [bne_iff_ne]

/-- C8 counterexample: a scalar buffer whose declared length equals the
expected fixed size but whose body is truncated makes `Decode` read out of
range (a Go panic, not an error); and a scalar buffer with surplus body
bytes is accepted, not rejected, even though the declared length differs
from the remaining body length. -/
theorem C8_counterexample :
    Decode [2, 0, 0, 0, 4] = .crash
    ∧ Decode [2, 0, 0, 0, 4, 9, 9, 9, 9, 7] = .ok (.int32 151587081) :=
  ⟨rfl, rfl⟩

/-- Reduction of `Decode` on a Bool-tagged buffer. -/
theorem decode_cons_tag1 (l0 l1 l2 l3 : Nat) (body : List Nat) :
    Decode (1 :: l0 :: l1 :: l2 :: l3 :: body)
      = if be32 l0 l1 l2 l3 ≠ 1 then .err .lengthMismatch
        else match body with
          | x :: _ => .ok (.bool (x != 0))
          | [] => .crash := rfl

/-- Reduction of `Decode` on an Int32-tagged buffer. -/
theorem decode_cons_tag2 (l0 l1 l2 l3 : Nat) (body : List Nat) :
    Decode (2 :: l0 :: l1 :: l2 :: l3 :: body)
      = if be32 l0 l1 l2 l3 ≠ 4 then .err .lengthMismatch
        else match body with
          | a :: b :: c :: d :: _ => .ok (.int32 (be32 a b c d))
          | _ => .crash := rfl

/-- Reduction of `Decode` on an Int64-tagged buffer. -/
theorem decode_cons_tag3 (l0 l1 l2 l3 : Nat) (body : List Nat) :
    Decode (3 :: l0 :: l1 :: l2 :: l3 :: body)
      = if be32 l0 l1 l2 l3 ≠ 8 then .err .lengthMismatch
        else match body with
          | a :: b :: c :: d :: e :: f :: g :: h :: _ => .ok (.int64 (be64 a b c d e f g h))
          | _ => .crash := rfl

/-- Reduction of `Decode` on a String-tagged buffer. -/
theorem decode_cons_tag4 (l0 l1 l2 l3 : Nat) (body : List Nat) :
    Decode (4 :: l0 :: l1 :: l2 :: l3 :: body)
      = if be32 l0 l1 l2 l3 ≠ body.length % 2 ^ 32 then .err .lengthMismatch
        else .ok (.str body) := rfl

/-- Reduction of `Decode` on a Bytes-tagged buffer. -/
theorem decode_cons_tag5 (l0 l1 l2 l3 : Nat) (body : List Nat) :
    Decode (5 :: l0 :: l1 :: l2 :: l3 :: body)
      = if be32 l0 l1 l2 l3 ≠ body.length % 2 ^ 32 then .err .lengthMismatch
        else .ok (.bytes body) := rfl

/-- Reduction of `Decode` on a Float32-tagged buffer. -/
theorem decode_cons_tag8 (l0 l1 l2 l3 : Nat) (body : List Nat) :
    Decode (8 :: l0 :: l1 :: l2 :: l3 :: body)
      = if be32 l0 l1 l2 l3 ≠ 4 then .err .lengthMismatch
        else match body with
          | a :: b :: c :: d :: _ => .ok (.float32 (be32 a b c d))
          | _ => .crash := rfl

/-- Reduction of `Decode` on a Float64-tagged buffer. -/
theorem decode_cons_tag9 (l0 l1 l2 l3 : Nat) (body : List Nat) :
    Decode (9 :: l0 :: l1 :: l2 :: l3 :: body)
      = if be32 l0 l1 l2 l3 ≠ 8 then .err .lengthMismatch
        else match body with
          | a :: b :: c :: d :: e :: f :: g :: h :: _ => .ok (.float64 (be64 a b c d e f g h))
          | _ => .crash := rfl

/-- Reduction of `Decode` on an Array-tagged buffer. -/
theorem decode_cons_tag6 (l0 l1 l2 l3 : Nat) (body : List Nat) :
    Decode (6 :: l0 :: l1 :: l2 :: l3 :: body)
      = (match body with
          | s0 :: s1 :: s2 :: s3 :: _ =>
            if (6 :: l0 :: l1 :: l2 :: l3 :: body).length < 9 + be32 s0 s1 s2 s3 then
              GoRes.err .tooShort
            else
              decodeArrayLoop (decodeF (6 :: l0 :: l1 :: l2 :: l3 :: body).length)
                (6 :: l0 :: l1 :: l2 :: l3 :: body) (be32 l0 l1 l2 l3) 9 []
          | _ => .crash) := rfl

/-- Reduction of `Decode` on a Map-tagged buffer. -/
theorem decode_cons_tag7 (l0 l1 l2 l3 : Nat) (body : List Nat) :
    Decode (7 :: l0 :: l1 :: l2 :: l3 :: body)
      = (match body with
          | s0 :: s1 :: s2 :: s3 :: _ =>
            if (7 :: l0 :: l1 :: l2 :: l3 :: body).length < 9 + be32 s0 s1 s2 s3 then
              GoRes.err .tooShort
            else
              decodeMapLoop (decodeF (7 :: l0 :: l1 :: l2 :: l3 :: body).length)
                (7 :: l0 :: l1 :: l2 :: l3 :: body) (be32 l0 l1 l2 l3) 9 []
          | _ => .crash) := rfl

/-- C8 (amended): `Decode`'s guard behavior on malformed buffers.  Buffers
shorter than 5 bytes, string/bytes buffers whose declared length differs
from the remaining body length, fixed-size scalar buffers whose declared
length differs from the expected fixed size, and container buffers with a
full 9-byte header but fewer than the declared body bytes are all rejected
with an error.  But `Decode` is not total: a fixed-size scalar buffer whose
declared length is correct but whose body is truncated, a container buffer
of 5 to 8 bytes, and a container buffer that passes the header size check
but whose first entry's 4-byte size read or declared entry bytes extend
past the end of the buffer, are Go panics (out-of-range reads), not
errors. -/
theorem C8_amended :
    (∀ data : List Nat, data.length < 5 → Decode data = .err .tooShort)
    ∧ (∀ t l0 l1 l2 l3 : Nat, ∀ body : List Nat, (t = 4 ∨ t = 5) →
        body.length < 2 ^ 32 → be32 l0 l1 l2 l3 ≠ body.length →
        Decode (t :: l0 :: l1 :: l2 :: l3 :: body) = .err .lengthMismatch)
    ∧ (∀ t fixed l0 l1 l2 l3 : Nat, ∀ body : List Nat,
        ((t = 1 ∧ fixed = 1) ∨ (t = 2 ∧ fixed = 4) ∨ (t = 3 ∧ fixed = 8)
          ∨ (t = 8 ∧ fixed = 4) ∨ (t = 9 ∧ fixed = 8)) →
        be32 l0 l1 l2 l3 ≠ fixed →
        Decode (t :: l0 :: l1 :: l2 :: l3 :: body) = .err .lengthMismatch)
    ∧ (∀ t fixed l0 l1 l2 l3 : Nat, ∀ body : List Nat,
        ((t = 1 ∧ fixed = 1) ∨ (t = 2 ∧ fixed = 4) ∨ (t = 3 ∧ fixed = 8)
          ∨ (t = 8 ∧ fixed = 4) ∨ (t = 9 ∧ fixed = 8)) →
        be32 l0 l1 l2 l3 = fixed → body.length < fixed →
        Decode (t :: l0 :: l1 :: l2 :: l3 :: body) = .crash)
    ∧ (∀ t l0 l1 l2 l3 : Nat, ∀ body : List Nat, (t = 6 ∨ t = 7) → body.length < 4 →
        Decode (t :: l0 :: l1 :: l2 :: l3 :: body) = .crash)
    ∧ (∀ t l0 l1 l2 l3 s0 s1 s2 s3 : Nat, ∀ rest : List Nat, (t = 6 ∨ t = 7) →
        rest.length < be32 s0 s1 s2 s3 →
        Decode (t :: l0 :: l1 :: l2 :: l3 :: s0 :: s1 :: s2 :: s3 :: rest) = .err .tooShort)
    ∧ (∀ t l0 l1 l2 l3 s0 s1 s2 s3 : Nat, ∀ rest : List Nat, (t = 6 ∨ t = 7) →
        be32 s0 s1 s2 s3 ≤ rest.length → 1 ≤ be32 l0 l1 l2 l3 → rest.length < 5 →
        Decode (t :: l0 :: l1 :: l2 :: l3 :: s0 :: s1 :: s2 :: s3 :: rest) = .crash)
    ∧ (∀ t l0 l1 l2 l3 s0 s1 s2 s3 r0 r1 r2 r3 r4 : Nat, ∀ rest2 : List Nat,
        (t = 6 ∨ t = 7) →
        be32 s0 s1 s2 s3 ≤ (r0 :: r1 :: r2 :: r3 :: r4 :: rest2).length →
        1 ≤ be32 l0 l1 l2 l3 →
        (r0 :: r1 :: r2 :: r3 :: r4 :: rest2).length < 5 + be32 r1 r2 r3 r4 →
        Decode (t :: l0 :: l1 :: l2 :: l3 :: s0 :: s1 :: s2 :: s3
          :: r0 :: r1 :: r2 :: r3 :: r4 :: rest2) = .crash) := by
  refine ⟨?_, ?_, ?_, ?_, ?_, ?_, ?_, ?_⟩
  · intro data h
    rcases data with _ | ⟨a, _ | ⟨b, _ | ⟨c, _ | ⟨d, _ | ⟨e, rest⟩⟩⟩⟩⟩
    · rfl
    · rfl
    · rfl
    · rfl
    · rfl
    · simp only [List.length_cons] at h; omega
  · intro t l0 l1 l2 l3 body ht hlt hne
    rcases ht with rfl | rfl
    · rw [decode_cons_tag4, Nat.mod_eq_of_lt hlt, if_pos hne]
    · rw [decode_cons_tag5, Nat.mod_eq_of_lt hlt, if_pos hne]
  · intro t fixed l0 l1 l2 l3 body ht hne
    rcases ht with ⟨rfl, rfl⟩ | ⟨rfl, rfl⟩ | ⟨rfl, rfl⟩ | ⟨rfl, rfl⟩ | ⟨rfl, rfl⟩
    · rw [decode_cons_tag1, if_pos hne]
    · rw [decode_cons_tag2, if_pos hne]
    · rw [decode_cons_tag3, if_pos hne]
    · rw [decode_cons_tag8, if_pos hne]
    · rw [decode_cons_tag9, if_pos hne]
  · intro t fixed l0 l1 l2 l3 body ht heq hshort
    rcases ht with ⟨rfl, rfl⟩ | ⟨rfl, rfl⟩ | ⟨rfl, rfl⟩ | ⟨rfl, rfl⟩ | ⟨rfl, rfl⟩
    · rw [decode_cons_tag1, if_neg (by omega)]
      rcases body with _ | ⟨a, rest⟩
      · rfl
      · simp only [List.length_cons] at hshort; omega
    · rw [decode_cons_tag2, if_neg (by omega)]
      rcases body with _ | ⟨a, _ | ⟨b, _ | ⟨c, _ | ⟨d, rest⟩⟩⟩⟩ <;>
        first
          | rfl
          | (simp only [List.length_cons] at hshort; omega)
    · rw [decode_cons_tag3, if_neg (by omega)]
      rcases body with
          _ | ⟨a, _ | ⟨b, _ | ⟨c, _ | ⟨d, _ | ⟨e, _ | ⟨f, _ | ⟨g, _ | ⟨h, rest⟩⟩⟩⟩⟩⟩⟩⟩ <;>
        first
          | rfl
          | (simp only [List.length_cons] at hshort; omega)
    · rw [decode_cons_tag8, if_neg (by omega)]
      rcases body with _ | ⟨a, _ | ⟨b, _ | ⟨c, _ | ⟨d, rest⟩⟩⟩⟩ <;>
        first
          | rfl
          | (simp only [List.length_cons] at hshort; omega)
    · rw [decode_cons_tag9, if_neg (by omega)]
      rcases body with
          _ | ⟨a, _ | ⟨b, _ | ⟨c, _ | ⟨d, _ | ⟨e, _ | ⟨f, _ | ⟨g, _ | ⟨h, rest⟩⟩⟩⟩⟩⟩⟩⟩ <;>
        first
          | rfl
          | (simp only [List.length_cons] at hshort; omega)
  · intro t l0 l1 l2 l3 body ht hshort
    rcases ht with rfl | rfl
    · rw [decode_cons_tag6]
      rcases body with _ | ⟨a, _ | ⟨b, _ | ⟨c, _ | ⟨d, rest⟩⟩⟩⟩ <;>
        first
          | rfl
          | (simp only [List.length_cons] at hshort; omega)
    · rw [decode_cons_tag7]
      rcases body with _ | ⟨a, _ | ⟨b, _ | ⟨c, _ | ⟨d, rest⟩⟩⟩⟩ <;>
        first
          | rfl
          | (simp only [List.length_cons] at hshort; omega)
  · intro t l0 l1 l2 l3 s0 s1 s2 s3 rest ht hshort
    rcases ht with rfl | rfl
    · rw [decode_cons_tag6]
      have hlen : (6 :: l0 :: l1 :: l2 :: l3 :: s0 :: s1 :: s2 :: s3 :: rest).length
          = rest.length + 9 := by simp
      simp only []
      rw [hlen, if_pos (by omega)]
    · rw [decode_cons_tag7]
      have hlen : (7 :: l0 :: l1 :: l2 :: l3 :: s0 :: s1 :: s2 :: s3 :: rest).length
          = rest.length + 9 := by simp
      simp only []
      rw [hlen, if_pos (by omega)]
  · intro t l0 l1 l2 l3 s0 s1 s2 s3 rest ht hsize hcount hshort
    obtain ⟨c, hc⟩ : ∃ c, be32 l0 l1 l2 l3 = c + 1 := ⟨be32 l0 l1 l2 l3 - 1, by omega⟩
    rcases ht with rfl | rfl
    · rw [decode_cons_tag6]
      have hlen : (6 :: l0 :: l1 :: l2 :: l3 :: s0 :: s1 :: s2 :: s3 :: rest).length
          = rest.length + 9 := by simp
      simp only []
      rw [hlen, if_neg (by omega), hc]
      simp only [decodeArrayLoop]
      have hread : readBE32 (6 :: l0 :: l1 :: l2 :: l3 :: s0 :: s1 :: s2 :: s3 :: rest)
          (9 + 1) = none := by
        unfold readBE32
        rw [if_neg (by simp only [List.length_cons]; omega)]
      rw [hread]
    · rw [decode_cons_tag7]
      have hlen : (7 :: l0 :: l1 :: l2 :: l3 :: s0 :: s1 :: s2 :: s3 :: rest).length
          = rest.length + 9 := by simp
      simp only []
      rw [hlen, if_neg (by omega), hc]
      simp only [decodeMapLoop]
      have hread : readBE32 (7 :: l0 :: l1 :: l2 :: l3 :: s0 :: s1 :: s2 :: s3 :: rest)
          (9 + 1) = none := by
        unfold readBE32
        rw [if_neg (by simp only [List.length_cons]; omega)]
      rw [hread]
  · intro t l0 l1 l2 l3 s0 s1 s2 s3 r0 r1 r2 r3 r4 rest2 ht hsize hcount hover
    obtain ⟨c, hc⟩ : ∃ c, be32 l0 l1 l2 l3 = c + 1 := ⟨be32 l0 l1 l2 l3 - 1, by omega⟩
    simp only [List.length_cons] at hsize hover
    rcases ht with rfl | rfl
    · rw [decode_cons_tag6]
      have hlen : (6 :: l0 :: l1 :: l2 :: l3 :: s0 :: s1 :: s2 :: s3
          :: r0 :: r1 :: r2 :: r3 :: r4 :: rest2).length = rest2.length + 14 := by simp
      simp only []
      rw [hlen, if_neg (by omega), hc]
      simp only [decodeArrayLoop]
      have hread : readBE32 (6 :: l0 :: l1 :: l2 :: l3 :: s0 :: s1 :: s2 :: s3
          :: r0 :: r1 :: r2 :: r3 :: r4 :: rest2) (9 + 1) = some (be32 r1 r2 r3 r4) := by
        unfold readBE32
        rw [if_pos (by simp only [List.length_cons]; omega)]
        rfl
      rw [hread]
      simp only []
      have hslice : sliceGo (6 :: l0 :: l1 :: l2 :: l3 :: s0 :: s1 :: s2 :: s3
          :: r0 :: r1 :: r2 :: r3 :: r4 :: rest2) 9 (9 + 5 + be32 r1 r2 r3 r4) = none := by
        unfold sliceGo
        rw [if_neg ?_]
        rintro ⟨h1, h2⟩
        simp only [List.length_cons] at h2
        omega
      rw [hslice]
    · rw [decode_cons_tag7]
      have hlen : (7 :: l0 :: l1 :: l2 :: l3 :: s0 :: s1 :: s2 :: s3
          :: r0 :: r1 :: r2 :: r3 :: r4 :: rest2).length = rest2.length + 14 := by simp
      simp only []
      rw [hlen, if_neg (by omega), hc]
      simp only [decodeMapLoop]
      have hread : readBE32 (7 :: l0 :: l1 :: l2 :: l3 :: s0 :: s1 :: s2 :: s3
          :: r0 :: r1 :: r2 :: r3 :: r4 :: rest2) (9 + 1) = some (be32 r1 r2 r3 r4) := by
        unfold readBE32
        rw [if_pos (by simp only [List.length_cons]; omega)]
        rfl
      rw [hread]
      simp only []
      have hslice : sliceGo (7 :: l0 :: l1 :: l2 :: l3 :: s0 :: s1 :: s2 :: s3
          :: r0 :: r1 :: r2 :: r3 :: r4 :: rest2) 9 (9 + 5 + be32 r1 r2 r3 r4) = none := by
        unfold sliceGo
        rw [if_neg ?_]
        rintro ⟨h1, h2⟩
        simp only [List.length_cons] at h2
        omega
      rw [hslice]

/-- C8 (amended) witness: each guard clause exercised at a concrete buffer,
including both first-entry overrun panics (an unreadable entry size field,
and entry bytes whose declared size extends past the buffer). -/
theorem C8_amended_witness :
    Decode [9, 9] = .err .tooShort
    ∧ Decode [4, 0, 0, 0, 3, 1, 2] = .err .lengthMismatch
    ∧ Decode [3, 0, 0, 0, 9, 1, 2, 3, 4, 5, 6, 7, 8, 9] = .err .lengthMismatch
    ∧ Decode [9, 0, 0, 0, 8, 1] = .crash
    ∧ Decode [6, 0, 0, 0, 2, 0] = .crash
    ∧ Decode [7, 0, 0, 0, 1, 0, 0, 0, 5, 1, 2] = .err .tooShort
    ∧ Decode [6, 0, 0, 0, 1, 0, 0, 0, 0] = .crash
    ∧ Decode [7, 0, 0, 0, 1, 0, 0, 0, 5, 4, 0, 0, 0, 9] = .crash :=
  ⟨C8_amended.1 [9, 9] (by decide),
   C8_amended.2.1 4 0 0 0 3 [1, 2] (Or.inl rfl) (by decide) (by decide),
   C8_amended.2.2.1 3 8 0 0 0 9 [1, 2, 3, 4, 5, 6, 7, 8, 9]
     (Or.inr (Or.inr (Or.inl ⟨rfl, rfl⟩))) (by decide),
   C8_amended.2.2.2.1 9 8 0 0 0 8 [1]
     (Or.inr (Or.inr (Or.inr (Or.inr ⟨rfl, rfl⟩)))) (by decide) (by decide),
   C8_amended.2.2.2.2.1 6 0 0 0 2 [0] (Or.inl rfl) (by decide),
   C8_amended.2.2.2.2.2.1 7 0 0 0 1 0 0 0 5 [1, 2] (Or.inr rfl) (by decide),
   C8_amended.2.2.2.2.2.2.1 6 0 0 0 1 0 0 0 0 [] (Or.inl rfl)
     (by decide) (by decide) (by decide),
   C8_amended.2.2.2.2.2.2.2 7 0 0 0 1 0 0 0 5 4 0 0 0 9 [] (Or.inr rfl)
     (by decide) (by decide) (by decide)⟩

/-- Totality of the byte-wise lexicographic order. -/
theorem lexLe_total : ∀ x y : List Nat, lexLe x y = true ∨ lexLe y x = true
  | [], _ => Or.inl rfl
  | _ :: _, [] => Or.inr rfl
  | a :: as, b :: bs => by
    simp only [lexLe]
    rcases Nat.lt_trichotomy a b with h | h | h
    · left; simp [h]
    · subst h
      simpa [lt_irrefl] using lexLe_total as bs
    · right; simp [h]

/-- Antisymmetry of the byte-wise lexicographic order. -/
theorem lexLe_antisymm : ∀ x y : List Nat, lexLe x y = true → lexLe y x = true → x = y
  | [], [], _, _ => rfl
  | [], _ :: _, _, h2 => by simp [lexLe] at h2
  | _ :: _, [], h1, _ => by simp [lexLe] at h1
  | a :: as, b :: bs, h1, h2 => by
    simp only [lexLe] at h1 h2
    rcases Nat.lt_trichotomy a b with h | h | h
    · rw [if_neg (by omega), if_pos h] at h2
      exact absurd h2 (by simp)
    · subst h
      simp only [lt_irrefl, if_neg, if_false] at h1 h2
      rw [lexLe_antisymm as bs h1 h2]
    · rw [if_neg (by omega), if_pos h] at h1
      exact absurd h1 (by simp)

/-- Transitivity of the byte-wise lexicographic order. -/
theorem lexLe_trans : ∀ x y z : List Nat,
    lexLe x y = true → lexLe y z = true → lexLe x z = true
  | [], _, _, _, _ => rfl
  | _ :: _, [], _, h1, _ => by simp [lexLe] at h1
  | _ :: _, _ :: _, [], _, h2 => by simp [lexLe] at h2
  | a :: as, b :: bs, c :: cs, h1, h2 => by
    simp only [lexLe] at h1 h2 ⊢
    rcases Nat.lt_trichotomy a b with hab | hab | hab
    · rcases Nat.lt_trichotomy b c with hbc | hbc | hbc
      · rw [if_pos (by omega)]
      · rw [if_pos (by omega)]
      · rw [if_neg (by omega), if_pos hbc] at h2
        exact absurd h2 (by simp)
    · subst hab
      simp only [lt_irrefl, if_neg, if_false] at h1
      rcases Nat.lt_trichotomy a c with hac | hac | hac
      · rw [if_pos hac]
      · subst hac
        simp only [lt_irrefl, if_neg, if_false] at h2 ⊢
        exact lexLe_trans as bs cs h1 h2
      · rw [if_neg (by omega), if_pos hac] at h2
        exact absurd h2 (by simp)
    · rw [if_neg (by omega), if_pos hab] at h1
      exact absurd h1 (by simp)

/-- Inserting an entry produces a permutation of consing it. -/
theorem insertPair_perm (e : List Nat × List Nat) :
    ∀ s, (insertPair e s).Perm (e :: s)
  | [] => List.Perm.refl _
  | f :: rest => by
    simp only [insertPair]
    split
    · exact List.Perm.refl _
    · exact ((insertPair_perm e rest).cons f).trans (List.Perm.swap e f rest)

/-- Insertion sort permutes its input. -/
theorem sortPairs_perm : ∀ s, (sortPairs s).Perm s
  | [] => List.Perm.refl _
  | x :: rest =>
    (insertPair_perm x (sortPairs rest)).trans ((sortPairs_perm rest).cons x)

/-- Insertion preserves sortedness by key. -/
theorem pairwise_insertPair (e : List Nat × List Nat) :
    ∀ s : List (List Nat × List Nat),
      s.Pairwise (fun a b => lexLe a.1 b.1 = true) →
      (insertPair e s).Pairwise (fun a b => lexLe a.1 b.1 = true)
  | [], _ => by simp [insertPair]
  | f :: rest, hs => by
    obtain ⟨hf, hrest⟩ := List.pairwise_cons.mp hs
    simp only [insertPair]
    split
    · rename_i h
      refine List.Pairwise.cons ?_ hs
      intro x hx
      rcases List.mem_cons.mp hx with rfl | hx'
      · exact h
      · exact lexLe_trans e.1 f.1 x.1 h (hf x hx')
    · rename_i h
      refine List.Pairwise.cons ?_ (pairwise_insertPair e rest hrest)
      intro x hx
      have hx' : x = e ∨ x ∈ rest := by
        simpa using (insertPair_perm e rest).mem_iff.mp hx
      rcases hx' with rfl | hx'
      · rcases lexLe_total x.1 f.1 with h' | h'
        · exact absurd h' h
        · exact h'
      · exact hf x hx'

/-- Insertion sort output is sorted by key. -/
theorem sortPairs_pairwise :
    ∀ s, (sortPairs s).Pairwise (fun a b => lexLe a.1 b.1 = true)
  | [] => List.Pairwise.nil
  | x :: rest => pairwise_insertPair x (sortPairs rest) (sortPairs_pairwise rest)

/-- Two key-sorted lists that are permutations of each other and have
duplicate-free keys are equal. -/
theorem sorted_nodup_eq :
    ∀ l1 l2 : List (List Nat × List Nat), l1.Perm l2 →
      l1.Pairwise (fun a b => lexLe a.1 b.1 = true) →
      l2.Pairwise (fun a b => lexLe a.1 b.1 = true) →
      (l1.map Prod.fst).Nodup → l1 = l2
  | [], l2, hp, _, _, _ => (hp.nil_eq).symm ▸ rfl
  | a :: t1, l2, hp, h1, h2, hn => by
    rcases l2 with _ | ⟨b, t2⟩
    · exact absurd hp.symm.nil_eq (by simp)
    by_cases hab : a = b
    · subst hab
      have ht : t1.Perm t2 := hp.cons_inv
      rw [List.map_cons] at hn
      have := sorted_nodup_eq t1 t2 ht (List.pairwise_cons.mp h1).2
        (List.pairwise_cons.mp h2).2 (List.nodup_cons.mp hn).2
      rw [this]
    · have hb : b ∈ a :: t1 := hp.symm.mem_iff.mp (List.mem_cons_self b t2)
      have hb' : b ∈ t1 := by
        rcases List.mem_cons.mp hb with h | h
        · exact absurd h.symm hab
        · exact h
      have ha : a ∈ b :: t2 := hp.mem_iff.mp (List.mem_cons_self a t1)
      have ha' : a ∈ t2 := by
        rcases List.mem_cons.mp ha with h | h
        · exact absurd h hab
        · exact h
      have hk1 : lexLe a.1 b.1 = true := (List.pairwise_cons.mp h1).1 b hb'
      have hk2 : lexLe b.1 a.1 = true := (List.pairwise_cons.mp h2).1 a ha'
      have hkey : a.1 = b.1 := lexLe_antisymm a.1 b.1 hk1 hk2
      have hmem : a.1 ∈ t1.map Prod.fst := hkey ▸ List.mem_map_of_mem Prod.fst hb'
      rw [List.map_cons] at hn
      exact absurd hmem (List.nodup_cons.mp hn).1

/-- Insertion sort depends only on the multiset of entries when the keys are
duplicate-free. -/
theorem sortPairs_eq_of_perm {l1 l2 : List (List Nat × List Nat)}
    (hp : l1.Perm l2) (hn : (l1.map Prod.fst).Nodup) :
    sortPairs l1 = sortPairs l2 :=
  sorted_nodup_eq _ _
    ((sortPairs_perm l1).trans (hp.trans (sortPairs_perm l2).symm))
    (sortPairs_pairwise l1) (sortPairs_pairwise l2)
    (((sortPairs_perm l1).map Prod.fst).nodup_iff.mpr hn)

/-- The per-entry encodings are a `map` over the entry list. -/
theorem encodePairs_map :
    ∀ es : List (List Nat × Value),
      encodePairs es = es.map (fun e => (e.1, encodeStr e.1 ++ Encode e.2))
  | [] => rfl
  | (k, v) :: es => by
    simp only [encodePairs, List.map_cons]
    rw [encodePairs_map es]

/-- Per-entry encoding preserves the key list. -/
theorem encodePairs_keys (es : List (List Nat × Value)) :
    (encodePairs es).map Prod.fst = es.map Prod.fst := by
  rw [encodePairs_map, List.map_map]
  rfl

/-- C7: map entries are emitted in byte-wise ascending key order, so the
encoding is independent of the entry order of the input map (its iteration
or insertion order), and in the concrete example the encoding of key "a"
(byte 97) appears strictly before the encoding of key "b" (byte 98). -/
theorem C7_canonical_map_order :
    (∀ l1 l2 : List (List Nat × Value), l1.Perm l2 → (l1.map Prod.fst).Nodup →
      Encode (Value.map l1) = Encode (Value.map l2))
    ∧ Encode (Value.map [([98], Value.int32 1), ([97], Value.int32 2)])
      = [7, 0, 0, 0, 2, 0, 0, 0, 30]
        ++ (encodeStr [97] ++ Encode (Value.int32 2))
        ++ (encodeStr [98] ++ Encode (Value.int32 1)) := by
  constructor
  · intro l1 l2 hp hn
    have hpe : (encodePairs l1).Perm (encodePairs l2) := by
      rw [encodePairs_map, encodePairs_map]
      exact hp.map _
    have hkeys : ((encodePairs l1).map Prod.fst).Nodup := by
      rw [encodePairs_keys]; exact hn
    have hs : sortPairs (encodePairs l1) = sortPairs (encodePairs l2) :=
      sortPairs_eq_of_perm hpe hkeys
    simp only [Encode]
    rw [hs, hp.length_eq]
  · rfl

/-- C7 witness: the two entry orders of the example map encode to the same
bytes. -/
theorem C7_canonical_map_order_witness :
    Encode (Value.map [([98], Value.int32 1), ([97], Value.int32 2)])
      = Encode (Value.map [([97], Value.int32 2), ([98], Value.int32 1)]) :=
  C7_canonical_map_order.1 _ _
    (List.Perm.swap ([97], Value.int32 2) ([98], Value.int32 1) [])
    (by decide)

/-- C4: a payload longer than `chunkSize * 2^depth` makes the hard-bound
builder return the size-bound error immediately, with no commitment data
(the Go function returns `nil, nil, nil, 0, err` before building anything). -/
theorem C4_size_bound (H : List Nat → List Nat) (payload : List Nat)
    (modulus chunkSize depth proofIndex : Nat)
    (h : payload.length > chunkSize * 2 ^ depth) :
    GenerateMerkleTreeWithHardBound H payload modulus chunkSize depth proofIndex
      = .err .sizeBound := by
  unfold GenerateMerkleTreeWithHardBound
  rw [if_pos h]

/-- C4 witness: a 2-byte payload with capacity `1 * 2^0 = 1`. -/
theorem C4_size_bound_witness :
    ([0, 0] : List Nat).length > 1 * 2 ^ 0
    ∧ GenerateMerkleTreeWithHardBound (fun _ => []) [0, 0] ECDSA_CURVE 1 0 0
        = .err .sizeBound :=
  ⟨by decide, C4_size_bound _ _ _ _ _ _ (by decide)⟩

/-- C5 counterexample: with the single-byte payload `[1]`, chunk size 16 and
modulus width 32, the hard-bound leaf for slot 0 is 16 zero bytes, the raw
chunk, then 15 trailing zeros - not the left-padded form (31 zeros then the
chunk) that the claim states for both modes. -/
theorem C5_counterexample :
    hardBoundLeaf [1] 16 32 0
      = some (List.replicate 16 0 ++ [1] ++ List.replicate 15 0)
    ∧ hardBoundLeaf [1] 16 32 0 ≠ some (List.replicate 31 0 ++ [1]) := by
  constructor
  · decide
  · decide

/-- C5 (amended): exact-mode leaves are the raw chunk left-padded with
leading zeros to the modulus width, as the claim states; but hard-bound
covered leaves are `chunkSize` zero bytes, then the raw chunk, then trailing
zeros up to the modulus width (which coincides with left-padding only when
`chunkSize + len(chunk)` equals the width, e.g. full chunks at the
protocol's 16-byte chunks over the 32-byte BN254 field); hard-bound slots
entirely beyond the payload are all-zero. -/
theorem C5_amended (payload : List Nat) (chunkSize W i : Nat) :
    (((payload.drop (i * chunkSize)).take chunkSize).length ≤ W →
      exactLeaf payload chunkSize W i
        = some (List.replicate (W - ((payload.drop (i * chunkSize)).take chunkSize).length) 0
            ++ (payload.drop (i * chunkSize)).take chunkSize))
    ∧ (i * chunkSize < payload.length →
        chunkSize + ((payload.drop (i * chunkSize)).take chunkSize).length ≤ W →
        hardBoundLeaf payload chunkSize W i
          = some (List.replicate chunkSize 0
              ++ (payload.drop (i * chunkSize)).take chunkSize
              ++ List.replicate
                  (W - (chunkSize + ((payload.drop (i * chunkSize)).take chunkSize).length)) 0))
    ∧ (¬ i * chunkSize < payload.length → chunkSize ≤ W →
        hardBoundLeaf payload chunkSize W i = some (List.replicate W 0)) := by
  have htake : (payload.drop (i * chunkSize)).take
      (min (i * chunkSize + chunkSize) payload.length - i * chunkSize)
      = (payload.drop (i * chunkSize)).take chunkSize := by
    rw [List.take_eq_take]
    simp [List.length_drop]
    omega
  refine ⟨?_, ?_, ?_⟩
  · intro h
    simp only [exactLeaf]
    rw [htake, if_pos h]
  · intro hcov h
    simp only [hardBoundLeaf]
    rw [if_pos hcov, htake]
    have hc : (List.replicate chunkSize 0
        ++ (payload.drop (i * chunkSize)).take chunkSize).length ≤ W := by
      simpa using h
    rw [if_pos hc]
    have hlen : (List.replicate chunkSize 0
        ++ (payload.drop (i * chunkSize)).take chunkSize).length
        = chunkSize + ((payload.drop (i * chunkSize)).take chunkSize).length := by
      simp
    rw [hlen, List.append_assoc]
  · intro hcov h
    simp only [hardBoundLeaf]
    rw [if_neg hcov]
    rcases Nat.lt_or_ge chunkSize W with h' | h'
    · rw [if_pos h']
      have hrep : List.replicate chunkSize (0 : Nat) ++ List.replicate (W - chunkSize) 0
          = List.replicate W 0 := by
        rw [← List.replicate_add]
        congr 1
        omega
      rw [hrep]
    · have : chunkSize = W := le_antisymm h h'
      subst this
      rw [if_neg (lt_irrefl _), if_pos rfl]

/-- C5 (amended) witness: the three leaf shapes at concrete inputs - the
exact-mode left-padded leaf, the hard-bound covered leaf, and an all-zero
hard-bound slot beyond the payload. -/
theorem C5_amended_witness :
    exactLeaf [1] 16 32 0 = some (List.replicate 31 0 ++ [1])
    ∧ hardBoundLeaf [1] 16 32 0
        = some (List.replicate 16 0 ++ [1] ++ List.replicate 15 0)
    ∧ hardBoundLeaf [1] 16 32 2 = some (List.replicate 32 0) := by
  refine ⟨?_, ?_, ?_⟩
  · have h := (C5_amended [1] 16 32 0).1 (by decide)
    rw [h]
    decide
  · have h := (C5_amended [1] 16 32 0).2.1 (by decide) (by decide)
    rw [h]
    decide
  · exact (C5_amended [1] 16 32 2).2.2 (by decide) (by decide)

/-- C3 counterexample: with chunk size 33, depth 0 and the BN254 modulus
(32-byte width), a 33-byte payload satisfies `len(P) <= C * 2^D` but the
hard-bound builder's `make([]byte, W - len(chunk))` has a negative length -
a Go panic, not a returned commitment. -/
theorem C3_counterexample :
    (List.replicate 33 1).length ≤ 33 * 2 ^ 0
    ∧ GenerateMerkleTreeWithHardBound (fun _ => []) (List.replicate 33 1) ECDSA_CURVE 33 0 0
        = .crash := by
  constructor
  · decide
  · rfl

/-- C10: every key type other than BLS12-377 (including the out-of-range
values of the Go `int`) selects the BN254 scalar field in the switch shared
by both commitment builders and the MiMC-BN254 hasher in
`GetHasherByType`; only BLS12-377 selects BW6-761 and MiMC-BW6-761.
Consequently both builders behave identically for every non-BLS key type. -/
theorem C10_curve_selection (kt : Int) (H sha : List Nat → List Nat)
    (t : ULTransactionInput) (h : kt ≠ KeyTypeBLS12377) :
    fieldForKeyType kt = ECDSA_CURVE
    ∧ GetHasherByType kt = Hasher.mimcBN254
    ∧ fieldForKeyType KeyTypeBLS12377 = BLS_CURVE
    ∧ GetHasherByType KeyTypeBLS12377 = Hasher.mimcBW6_761
    ∧ GetUnboundCommitment H { t with keyType := kt }
        = GetUnboundCommitment H { t with keyType := KeyTypeSecp256k1 }
    ∧ GetSignatureCommitment sha H { t with keyType := kt }
        = GetSignatureCommitment sha H { t with keyType := KeyTypeSecp256k1 } := by
  have hf : fieldForKeyType kt = ECDSA_CURVE := by
    unfold fieldForKeyType
    rw [if_neg h]
  have hf0 : fieldForKeyType KeyTypeSecp256k1 = ECDSA_CURVE := by decide
  refine ⟨hf, ?_, by decide, by decide, ?_, ?_⟩
  · by_cases h0 : kt = KeyTypeSecp256k1
    · simp [GetHasherByType, h0]
    · simp [GetHasherByType, h0, h]
  · unfold GetUnboundCommitment
    simp only [hf, hf0]
  · unfold GetSignatureCommitment
    simp only [hf, hf0]

/-- C10 witness: instantiated at the ED25519 key type. -/
theorem C10_curve_selection_witness :
    KeyTypeED25519 ≠ KeyTypeBLS12377
    ∧ (fieldForKeyType KeyTypeED25519 = ECDSA_CURVE
      ∧ GetHasherByType KeyTypeED25519 = Hasher.mimcBN254
      ∧ fieldForKeyType KeyTypeBLS12377 = BLS_CURVE
      ∧ GetHasherByType KeyTypeBLS12377 = Hasher.mimcBW6_761
      ∧ GetUnboundCommitment (fun _ => [])
          { blockchainId := [], toAddr := [], fromAddr := [], payload := [],
            payloadType := [], suggestor := [], senderTimestamp := 0,
            keyType := KeyTypeED25519 }
        = GetUnboundCommitment (fun _ => [])
          { blockchainId := [], toAddr := [], fromAddr := [], payload := [],
            payloadType := [], suggestor := [], senderTimestamp := 0,
            keyType := KeyTypeSecp256k1 }
      ∧ GetSignatureCommitment (fun _ => []) (fun _ => [])
          { blockchainId := [], toAddr := [], fromAddr := [], payload := [],
            payloadType := [], suggestor := [], senderTimestamp := 0,
            keyType := KeyTypeED25519 }
        = GetSignatureCommitment (fun _ => []) (fun _ => [])
          { blockchainId := [], toAddr := [], fromAddr := [], payload := [],
            payloadType := [], suggestor := [], senderTimestamp := 0,
            keyType := KeyTypeSecp256k1 }) := by
  constructor
  · decide
  · exact C10_curve_selection KeyTypeED25519 (fun _ => []) (fun _ => [])
      { blockchainId := [], toAddr := [], fromAddr := [], payload := [],
        payloadType := [], suggestor := [], senderTimestamp := 0,
        keyType := KeyTypeSecp256k1 } (by decide)

/-- Inversion of a successful `splitHash32`. -/
theorem splitHash32_eq_some (sha : List Nat → List Nat) (s : List Nat)
    (p : List Nat × List Nat) (h : splitHash32 sha s = some p) :
    p = ((sha s).take 16, (sha s).drop 16) := by
  unfold splitHash32 at h
  split at h
  · exact (Option.some.inj h).symm
  · exact absurd h (by simp)

/-- C2: for every commitment the bound pipeline produces, the hashed
preimage is exactly blockchainIdHigh, blockchainIdLow, fromHigh, fromLow,
toHigh, toLow, payloadRoot, the 8-byte big-endian timestamp, suggestorHigh,
suggestorLow, in that order, where each identifier's high/low segments are
the first/last 16 bytes of its 32-byte general-purpose digest and the
payload root comes from the hard-bound builder. -/
theorem C2_commitment_preimage (sha H : List Nat → List Nat)
    (t : ULTransactionInput) (hsha : ∀ s, (sha s).length = 32) :
    GoRes.map (HashSignatureCommitment H) (GetSignatureCommitment sha H t)
      = GoRes.map
          (fun res =>
            H ((sha t.blockchainId).take 16 ++ ((sha t.blockchainId).drop 16
              ++ ((sha t.fromAddr).take 16 ++ ((sha t.fromAddr).drop 16
              ++ ((sha t.toAddr).take 16 ++ ((sha t.toAddr).drop 16
              ++ (res.1 ++ (putUint64 t.senderTimestamp
              ++ ((sha t.suggestor).take 16 ++ (sha t.suggestor).drop 16))))))))))
          (GenerateMerkleTreeWithHardBound H t.payload (fieldForKeyType t.keyType)
            CHUNK_SIZE DEPTH 0) := by
  unfold GetSignatureCommitment
  have hb : splitHash32 sha t.blockchainId
      = some ((sha t.blockchainId).take 16, (sha t.blockchainId).drop 16) := by
    unfold splitHash32
    rw [if_pos (hsha t.blockchainId)]
  have hf : splitHash32 sha t.fromAddr
      = some ((sha t.fromAddr).take 16, (sha t.fromAddr).drop 16) := by
    unfold splitHash32
    rw [if_pos (hsha t.fromAddr)]
  have ht : splitHash32 sha t.toAddr
      = some ((sha t.toAddr).take 16, (sha t.toAddr).drop 16) := by
    unfold splitHash32
    rw [if_pos (hsha t.toAddr)]
  have hs : splitHash32 sha t.suggestor
      = some ((sha t.suggestor).take 16, (sha t.suggestor).drop 16) := by
    unfold splitHash32
    rw [if_pos (hsha t.suggestor)]
  rw [hb, hf, ht, hs]
  cases hm : GenerateMerkleTreeWithHardBound H t.payload (fieldForKeyType t.keyType)
      CHUNK_SIZE DEPTH 0 with
  | crash => rfl
  | err e => rfl
  | ok res =>
    simp only [GoRes.map, HashSignatureCommitment, List.append_assoc]

/-- C2 witness: the preimage equation instantiated with a concrete length-32
digest function, the constant-empty hasher and an all-empty input. -/
theorem C2_commitment_preimage_witness :
    (∀ s : List Nat, ((fun _ => List.replicate 32 0) s : List Nat).length = 32)
    ∧ GoRes.map (HashSignatureCommitment (fun _ => []))
        (GetSignatureCommitment (fun _ => List.replicate 32 0) (fun _ => [])
          { blockchainId := [], toAddr := [], fromAddr := [], payload := [],
            payloadType := [], suggestor := [], senderTimestamp := 0, keyType := 0 })
      = GoRes.map
          (fun res =>
            (fun _ => ([] : List Nat))
              (((fun _ => List.replicate 32 0) ([] : List Nat)).take 16
                ++ (((fun _ => List.replicate 32 0) ([] : List Nat)).drop 16
                ++ (((fun _ => List.replicate 32 0) ([] : List Nat)).take 16
                ++ (((fun _ => List.replicate 32 0) ([] : List Nat)).drop 16
                ++ (((fun _ => List.replicate 32 0) ([] : List Nat)).take 16
                ++ (((fun _ => List.replicate 32 0) ([] : List Nat)).drop 16
                ++ (res.1 ++ (putUint64 0
                ++ (((fun _ => List.replicate 32 0) ([] : List Nat)).take 16
                ++ ((fun _ => List.replicate 32 0) ([] : List Nat)).drop 16))))))))))
          (GenerateMerkleTreeWithHardBound (fun _ => []) []
            (fieldForKeyType 0) CHUNK_SIZE DEPTH 0) :=
  ⟨fun s => by simp,
   C2_commitment_preimage (fun _ => List.replicate 32 0) (fun _ => [])
     { blockchainId := [], toAddr := [], fromAddr := [], payload := [],
       payloadType := [], suggestor := [], senderTimestamp := 0, keyType := 0 }
     (fun s => by simp)⟩

/-- C6: for the four unbound payload types (contract deploy/upgrade, wallet
create/alter) the bytes handed to `SignData` are exactly the exact-mode
Merkle root of the payload - no identifier or timestamp binding; for every
other payload type they are the curve-native hash of the full bound
commitment preimage. -/
theorem C6_signed_bytes (sha : List Nat → List Nat)
    (hasherFun : Hasher → List Nat → List Nat) (sess : SessionWallet) (now : Nat)
    (t0 : ULTransactionInput) :
    ((t0.payloadType = strDEPLOY_SMART_CONTRACT
        ∨ t0.payloadType = strUPGRADE_SMART_CONTRACT
        ∨ t0.payloadType = strCREATE_WALLET
        ∨ t0.payloadType = strALTER_WALLET) →
      GenerateTransactionSignedBytes sha hasherFun sess now t0
        = GoRes.map (fun res => res.1)
            (GenerateMerkleTree (hasherFun (GetHasherByType sess.keyType)) t0.payload
              (fieldForKeyType sess.keyType) CHUNK_SIZE 0))
    ∧ (¬ (t0.payloadType = strDEPLOY_SMART_CONTRACT
        ∨ t0.payloadType = strUPGRADE_SMART_CONTRACT
        ∨ t0.payloadType = strCREATE_WALLET
        ∨ t0.payloadType = strALTER_WALLET) →
      GenerateTransactionSignedBytes sha hasherFun sess now t0
        = GoRes.map
            (HashSignatureCommitment (hasherFun (GetHasherByType sess.keyType)))
            (GetSignatureCommitment sha (hasherFun (GetHasherByType sess.keyType))
              (adjustInput sess now t0))) := by
  have hkt : (adjustInput sess now t0).keyType = sess.keyType := rfl
  have hpt : (adjustInput sess now t0).payloadType = t0.payloadType := rfl
  have hpl : (adjustInput sess now t0).payload = t0.payload := rfl
  constructor
  · intro h
    simp only [GenerateTransactionSignedBytes, GetUnboundCommitment, hkt, hpt, hpl]
    rw [if_pos h]
    cases GenerateMerkleTree (hasherFun (GetHasherByType sess.keyType)) t0.payload
        (fieldForKeyType sess.keyType) CHUNK_SIZE 0 with
    | crash => rfl
    | err e => rfl
    | ok res => rfl
  · intro h
    simp only [GenerateTransactionSignedBytes, hkt, hpt]
    rw [if_neg h]
    cases GetSignatureCommitment sha (hasherFun (GetHasherByType sess.keyType))
        (adjustInput sess now t0) with
    | crash => rfl
    | err e => rfl
    | ok sc => rfl

/-- C6 witness: both branches instantiated - a CREATE_WALLET payload signs
the exact-mode root, and a DATA payload signs the hashed bound preimage. -/
theorem C6_signed_bytes_witness :
    GenerateTransactionSignedBytes (fun _ => List.replicate 32 0) (fun _ _ => [])
        { suggestor := [], walletAddress := [7], keyType := 0 } 0
        { blockchainId := [], toAddr := [], fromAddr := [], payload := [1, 2, 3],
          payloadType := strCREATE_WALLET, suggestor := [], senderTimestamp := 0,
          keyType := 2 }
      = GoRes.map (fun res => res.1)
          (GenerateMerkleTree ((fun (_ : Hasher) (_ : List Nat) => ([] : List Nat))
              (GetHasherByType 0)) [1, 2, 3] (fieldForKeyType 0) CHUNK_SIZE 0)
    ∧ GenerateTransactionSignedBytes (fun _ => List.replicate 32 0) (fun _ _ => [])
        { suggestor := [], walletAddress := [7], keyType := 0 } 0
        { blockchainId := [], toAddr := [], fromAddr := [], payload := [1, 2, 3],
          payloadType := [68, 65, 84, 65], suggestor := [], senderTimestamp := 0,
          keyType := 2 }
      = GoRes.map
          (HashSignatureCommitment ((fun (_ : Hasher) (_ : List Nat) => ([] : List Nat))
              (GetHasherByType 0)))
          (GetSignatureCommitment (fun _ => List.replicate 32 0)
            ((fun (_ : Hasher) (_ : List Nat) => ([] : List Nat)) (GetHasherByType 0))
            (adjustInput { suggestor := [], walletAddress := [7], keyType := 0 } 0
              { blockchainId := [], toAddr := [], fromAddr := [], payload := [1, 2, 3],
                payloadType := [68, 65, 84, 65], suggestor := [], senderTimestamp := 0,
                keyType := 2 })) :=
  ⟨(C6_signed_bytes (fun _ => List.replicate 32 0) (fun _ _ => [])
      { suggestor := [], walletAddress := [7], keyType := 0 } 0
      { blockchainId := [], toAddr := [], fromAddr := [], payload := [1, 2, 3],
        payloadType := strCREATE_WALLET, suggestor := [], senderTimestamp := 0,
        keyType := 2 }).1 (Or.inr (Or.inr (Or.inl rfl))),
   (C6_signed_bytes (fun _ => List.replicate 32 0) (fun _ _ => [])
      { suggestor := [], walletAddress := [7], keyType := 0 } 0
      { blockchainId := [], toAddr := [], fromAddr := [], payload := [1, 2, 3],
        payloadType := [68, 65, 84, 65], suggestor := [], senderTimestamp := 0,
        keyType := 2 }).2 (by decide)⟩

/-- The fuel-indexed log2 is exact on powers of two. -/
theorem log2Aux_pow : ∀ (d fuel : Nat), 2 ^ d ≤ fuel → log2Aux fuel (2 ^ d) = d
  | 0, fuel, h => by
    cases fuel with
    | zero => exact absurd h (by simp)
    | succ f => simp [log2Aux]
  | d + 1, fuel, h => by
    cases fuel with
    | zero =>
      have := Nat.two_pow_pos (d + 1)
      omega
    | succ f =>
      have h2 : 2 ^ (d + 1) / 2 = 2 ^ d := by
        rw [pow_succ]
        exact Nat.mul_div_cancel _ (by norm_num)
      have hf : 2 ^ d ≤ f := by
        have hp : 0 < 2 ^ d := Nat.two_pow_pos d
        have he : 2 ^ (d + 1) = 2 * 2 ^ d := by rw [pow_succ]; ring
        omega
      simp only [log2Aux]
      rw [if_pos (by
        have : (2 : Nat) ^ 1 ≤ 2 ^ (d + 1) := Nat.pow_le_pow_right (by norm_num) (by omega)
        simpa using this)]
      rw [h2, log2Aux_pow d f hf]

/-- `log2Nat` is exact on powers of two. -/
theorem log2Nat_pow (d : Nat) : log2Nat (2 ^ d) = d :=
  log2Aux_pow d (2 ^ d) le_rfl

/-- Splitting a concatenation of equal-width segments recovers them. -/
theorem chunkify_flatten (W : Nat) (hW : 0 < W) :
    ∀ (ls : List (List Nat)) (fuel : Nat), (∀ l ∈ ls, l.length = W) →
      ls.flatten.length ≤ fuel → chunkify W fuel ls.flatten = ls
  | [], fuel, _, _ => by cases fuel <;> simp [chunkify]
  | l :: rest, fuel, hlen, hfuel => by
    have hl : l.length = W := hlen l (List.mem_cons_self l rest)
    have hfl : (l :: rest).flatten = l ++ rest.flatten := rfl
    rw [hfl] at hfuel ⊢
    cases fuel with
    | zero =>
      exfalso
      simp only [List.length_append] at hfuel
      omega
    | succ f =>
      simp only [chunkify]
      rw [if_neg (List.ne_nil_of_length_pos (by simp only [List.length_append]; omega)),
        if_neg (by omega), List.take_left' hl, List.drop_left' hl,
        chunkify_flatten W hW rest f (fun x hx => hlen x (List.mem_cons_of_mem l hx))
          (by simp only [List.length_append] at hfuel; omega)]

/-- Collecting pointwise-successful optional results succeeds pointwise. -/
theorem sequenceOpt_map {α β : Type} (f : β → Option α) (g : β → α) :
    ∀ l : List β, (∀ x ∈ l, f x = some (g x)) →
      sequenceOpt (l.map f) = some (l.map g)
  | [], _ => rfl
  | x :: rest, h => by
    have hx : f x = some (g x) := h x (List.mem_cons_self x rest)
    simp only [List.map_cons, sequenceOpt, hx]
    rw [sequenceOpt_map f g rest (fun y hy => h y (List.mem_cons_of_mem x hy))]
    rfl

/-- Length of a concatenation of equal-width segments. -/
theorem flatten_length_const (W : Nat) :
    ∀ ls : List (List Nat), (∀ l ∈ ls, l.length = W) →
      ls.flatten.length = ls.length * W
  | [], _ => by simp
  | l :: rest, h => by
    simp only [List.flatten_cons, List.length_append, List.length_cons]
    rw [h l (List.mem_cons_self l rest),
      flatten_length_const W rest (fun x hx => h x (List.mem_cons_of_mem l hx))]
    ring

/-- Under the padding hypothesis every hard-bound leaf slot is written
without a panic. -/
theorem hardBoundLeaf_ok (payload : List Nat) (chunkSize W i : Nat)
    (h : chunkSize + min chunkSize payload.length ≤ W) :
    ∃ l, hardBoundLeaf payload chunkSize W i = some l := by
  simp only [hardBoundLeaf]
  split
  · rename_i hcov
    rw [if_pos (by
      simp only [List.length_append, List.length_replicate, List.length_take,
        List.length_drop]
      omega)]
    exact ⟨_, rfl⟩
  · split
    · exact ⟨_, rfl⟩
    · rw [if_pos (by omega)]
      exact ⟨_, rfl⟩

/-- Every successfully written hard-bound leaf is exactly the modulus width. -/
theorem hardBoundLeaf_len (payload : List Nat) (chunkSize W i : Nat) (l : List Nat)
    (h : hardBoundLeaf payload chunkSize W i = some l) : l.length = W := by
  simp only [hardBoundLeaf] at h
  split at h
  · split at h
    · rename_i hle
      obtain rfl := Option.some.inj h
      simp only [List.length_append, List.length_replicate, List.length_take,
        List.length_drop] at hle ⊢
      omega
    · exact absurd h (by simp)
  · split at h
    · rename_i hlt
      obtain rfl := Option.some.inj h
      simp only [List.length_append, List.length_replicate]
      omega
    · split at h
      · rename_i heq
        obtain rfl := Option.some.inj h
        simp [heq]
      · exact absurd h (by simp)

/-- The sibling list of a perfect `2^d`-leaf tree has exactly `d` entries. -/
theorem sibs_length (H : List Nat → List Nat) :
    ∀ (d idx : Nat) (ls : List (List Nat)), (sibs H d idx ls).length = d
  | 0, _, _ => rfl
  | d + 1, idx, ls => by
    simp only [sibs]
    split
    · simp [sibs_length H d]
    · simp [sibs_length H d]

/-- Folding a proof over concatenated sibling lists splits at the length. -/
theorem foldProof_append (H : List Nat → List Nat) (idx : Nat) :
    ∀ (xs ys : List (List Nat)) (h : Nat) (sum : List Nat),
      foldProof H idx h sum (xs ++ ys)
        = foldProof H idx (h + xs.length) (foldProof H idx h sum xs) ys
  | [], ys, h, sum => by simp [foldProof]
  | x :: xs, ys, h, sum => by
    have hlen : h + (x :: xs).length = h + 1 + xs.length := by
      simp only [List.length_cons]
      omega
    simp only [List.cons_append, foldProof, List.append_eq]
    rw [foldProof_append H idx xs ys (h + 1), hlen]

/-- Decomposition of `idx mod 2^(h+d)` into the subtree index bits above
height `h-1` and the remainder below. -/
theorem mod_split_bit (idx h d i : Nat) (hh : 1 ≤ h) (hi : i < 2 ^ (d + 1))
    (hmod : idx / 2 ^ (h - 1) % 2 ^ (d + 1) = i) :
    idx % 2 ^ (h + d) = i * 2 ^ (h - 1) + idx % 2 ^ (h - 1) := by
  have hApos : 0 < 2 ^ (h - 1) := Nat.two_pow_pos _
  have hAB : 2 ^ (h + d) = 2 ^ (h - 1) * 2 ^ (d + 1) := by
    rw [← pow_add]
    congr 1
    omega
  have hqr := Nat.div_add_mod idx (2 ^ (h - 1))
  have hq2 := Nat.div_add_mod (idx / 2 ^ (h - 1)) (2 ^ (d + 1))
  rw [hmod] at hq2
  have hr : idx % 2 ^ (h - 1) < 2 ^ (h - 1) := Nat.mod_lt _ hApos
  have hidx : idx = 2 ^ (h - 1) * 2 ^ (d + 1) * (idx / 2 ^ (h - 1) / 2 ^ (d + 1))
      + (i * 2 ^ (h - 1) + idx % 2 ^ (h - 1)) := by
    calc idx = 2 ^ (h - 1) * (idx / 2 ^ (h - 1)) + idx % 2 ^ (h - 1) := hqr.symm
      _ = 2 ^ (h - 1) * (2 ^ (d + 1) * (idx / 2 ^ (h - 1) / 2 ^ (d + 1)) + i)
            + idx % 2 ^ (h - 1) := by rw [hq2]
      _ = 2 ^ (h - 1) * 2 ^ (d + 1) * (idx / 2 ^ (h - 1) / 2 ^ (d + 1))
            + (i * 2 ^ (h - 1) + idx % 2 ^ (h - 1)) := by ring
  have hlt : i * 2 ^ (h - 1) + idx % 2 ^ (h - 1) < 2 ^ (h - 1) * 2 ^ (d + 1) := by
    have h1 : i * 2 ^ (h - 1) + idx % 2 ^ (h - 1) < (i + 1) * 2 ^ (h - 1) := by
      have h3 : (i + 1) * 2 ^ (h - 1) = i * 2 ^ (h - 1) + 2 ^ (h - 1) := by ring
      omega
    have h2 : (i + 1) * 2 ^ (h - 1) ≤ 2 ^ (d + 1) * 2 ^ (h - 1) :=
      Nat.mul_le_mul_right _ (by omega)
    have h4 : 2 ^ (d + 1) * 2 ^ (h - 1) = 2 ^ (h - 1) * 2 ^ (d + 1) := Nat.mul_comm _ _
    omega
  rw [hAB]
  conv_lhs => rw [hidx]
  rw [Nat.mul_add_mod, Nat.mod_eq_of_lt hlt]

/-- The plain fold of the sibling digests of a perfect tree recomputes its
root, for any global index whose bits above `h-1` select leaf `i`. -/
theorem foldProof_sibs (H : List Nat → List Nat) :
    ∀ (d : Nat) (ls : List (List Nat)) (i h idx : Nat),
      1 ≤ h → ls.length = 2 ^ d → i < 2 ^ d →
      idx / 2 ^ (h - 1) % 2 ^ d = i →
      foldProof H idx h (leafSum H (leafData d i ls)) (sibs H d i ls)
        = merkleRootPd H d ls
  | 0, ls, i, h, idx, _, _, _, _ => by
    simp [sibs, foldProof, leafData, merkleRootPd]
  | d + 1, ls, i, h, idx, hh, hlen, hi, hmod => by
    have hpow : (0 : Nat) < 2 ^ d := Nat.two_pow_pos d
    have hsucc : 2 ^ (d + 1) = 2 * 2 ^ d := by rw [pow_succ]; ring
    have htk : (ls.take (2 ^ d)).length = 2 ^ d := by
      simp only [List.length_take, hlen]
      omega
    have hdr : (ls.drop (2 ^ d)).length = 2 ^ d := by
      simp only [List.length_drop, hlen]
      omega
    have hsub : idx - idx / 2 ^ (h + d) * 2 ^ (h + d) = idx % 2 ^ (h + d) := by
      have h1 := Nat.div_add_mod idx (2 ^ (h + d))
      have h2 : idx / 2 ^ (h + d) * 2 ^ (h + d) = 2 ^ (h + d) * (idx / 2 ^ (h + d)) :=
        Nat.mul_comm _ _
      omega
    have hm := mod_split_bit idx h d i hh hi hmod
    have hrlow : idx % 2 ^ (h - 1) < 2 ^ (h - 1) := Nat.mod_lt _ (Nat.two_pow_pos _)
    have hhd : 2 ^ (h + d - 1) = 2 ^ d * 2 ^ (h - 1) := by
      rw [← pow_add]
      congr 1
      omega
    by_cases hc : i < 2 ^ d
    · have hmod' : idx / 2 ^ (h - 1) % 2 ^ d = i := by
        have hdvd : (2 : Nat) ^ d ∣ 2 ^ (d + 1) := ⟨2, by rw [pow_succ]⟩
        calc idx / 2 ^ (h - 1) % 2 ^ d
            = idx / 2 ^ (h - 1) % 2 ^ (d + 1) % 2 ^ d := (Nat.mod_mod_of_dvd _ hdvd).symm
          _ = i % 2 ^ d := by rw [hmod]
          _ = i := Nat.mod_eq_of_lt hc
      have hcond : idx % 2 ^ (h + d) < 2 ^ (h + d - 1) := by
        rw [hm, hhd]
        have h1 : (i + 1) * 2 ^ (h - 1) ≤ 2 ^ d * 2 ^ (h - 1) :=
          Nat.mul_le_mul_right _ (by omega)
        have h3 : (i + 1) * 2 ^ (h - 1) = i * 2 ^ (h - 1) + 2 ^ (h - 1) := by ring
        omega
      simp only [sibs, leafData, if_pos hc]
      rw [foldProof_append,
        foldProof_sibs H d (ls.take (2 ^ d)) i h idx hh htk hc hmod',
        sibs_length]
      simp only [foldProof]
      rw [if_pos (by omega)]
      simp [merkleRootPd, nodeSum]
    · have hj : i - 2 ^ d < 2 ^ d := by omega
      have hmod' : idx / 2 ^ (h - 1) % 2 ^ d = i - 2 ^ d := by
        have hdvd : (2 : Nat) ^ d ∣ 2 ^ (d + 1) := ⟨2, by rw [pow_succ]⟩
        calc idx / 2 ^ (h - 1) % 2 ^ d
            = idx / 2 ^ (h - 1) % 2 ^ (d + 1) % 2 ^ d := (Nat.mod_mod_of_dvd _ hdvd).symm
          _ = i % 2 ^ d := by rw [hmod]
          _ = (2 ^ d + (i - 2 ^ d)) % 2 ^ d := by congr 1; omega
          _ = (i - 2 ^ d) % 2 ^ d := Nat.add_mod_left _ _
          _ = i - 2 ^ d := Nat.mod_eq_of_lt hj
      have hcond : ¬ idx % 2 ^ (h + d) < 2 ^ (h + d - 1) := by
        rw [hm, hhd]
        have h1 : 2 ^ d * 2 ^ (h - 1) ≤ i * 2 ^ (h - 1) :=
          Nat.mul_le_mul_right _ (by omega)
        omega
      simp only [sibs, leafData, if_neg hc]
      rw [foldProof_append,
        foldProof_sibs H d (ls.drop (2 ^ d)) (i - 2 ^ d) h idx hh hdr hj hmod',
        sibs_length]
      simp only [foldProof]
      rw [if_neg (by omega)]
      simp [merkleRootPd, nodeSum]

/-- On a perfect `2^D`-leaf tree the verifier's main loop runs once per
height and computes exactly the plain sibling fold: the aligned subtree
around the index stays inside the leaf range until the proof is exhausted,
the last stable subtree ends at the last leaf, and the two trailing phases
are vacuous. -/
theorem phase1_fold (H : List Nat → List Nat) (idx D : Nat) (hidx : idx < 2 ^ D) :
    ∀ (rest : List (List Nat)) (h s : Nat) (sum : List Nat),
      1 ≤ h → h + rest.length = D + 1 → (rest = [] → s = 2 ^ D - 1) →
      verifyPhase1 H idx (2 ^ D) h s sum rest = some (foldProof H idx h sum rest)
  | [], h, s, sum, hh, hlen, hnil => by
    have hD : h = D + 1 := by simpa using hlen
    subst hD
    have hdiv : idx / 2 ^ (D + 1) = 0 :=
      Nat.div_eq_of_lt (lt_of_lt_of_le hidx (Nat.pow_le_pow_right (by norm_num) (by omega)))
    have h1 : (0 : Nat) < 2 ^ D := Nat.two_pow_pos D
    have h2 : 2 ^ (D + 1) = 2 * 2 ^ D := by rw [pow_succ]; ring
    simp only [verifyPhase1, foldProof, hdiv, Nat.zero_mul]
    rw [if_pos (by omega), if_neg (by rw [hnil rfl]; simp)]
    rfl
  | p :: rest', h, s, sum, hh, hlen, _ => by
    have hhD : h ≤ D := by
      simp only [List.length_cons] at hlen
      omega
    have hp : (0 : Nat) < 2 ^ h := Nat.two_pow_pos h
    have hDh : 2 ^ (D - h) * 2 ^ h = 2 ^ D := by
      rw [← pow_add]
      congr 1
      omega
    have hql : idx / 2 ^ h < 2 ^ (D - h) := by
      rw [Nat.div_lt_iff_lt_mul hp, hDh]
      exact hidx
    have hend : idx / 2 ^ h * 2 ^ h + 2 ^ h - 1 < 2 ^ D := by
      have h1 : (idx / 2 ^ h + 1) * 2 ^ h ≤ 2 ^ (D - h) * 2 ^ h :=
        Nat.mul_le_mul_right _ (by omega)
      have h3 : (idx / 2 ^ h + 1) * 2 ^ h = idx / 2 ^ h * 2 ^ h + 2 ^ h := by ring
      omega
    simp only [verifyPhase1, foldProof]
    rw [if_neg (by omega)]
    rw [phase1_fold H idx D hidx rest' (h + 1)
      (idx / 2 ^ h * 2 ^ h + 2 ^ h - 1) _ (by omega)
      (by simp only [List.length_cons] at hlen; omega) ?_]
    intro hr
    subst hr
    have hD : h = D := by
      simp only [List.length_cons, List.length_nil] at hlen
      omega
    subst hD
    rw [Nat.div_eq_of_lt hidx]
    simp

/-- The proof produced for a perfect tree always verifies against the root
produced for the same tree: build-then-verify cannot fail. -/
theorem verify_build_perfect (H : List Nat → List Nat) (d idx : Nat)
    (ls : List (List Nat)) (hlen : ls.length = 2 ^ d) (hidx : idx < 2 ^ d) :
    VerifyProof H (some (merkleRootPd H d ls)) (merkleProofP H d idx ls) idx (2 ^ d)
      = true := by
  have h1 := phase1_fold H idx d hidx (sibs H d idx ls) 1 idx
    (leafSum H (leafData d idx ls)) (by omega)
    (by rw [sibs_length]; omega)
    (by
      intro hs
      have hd0 := sibs_length H d idx ls
      rw [hs] at hd0
      simp only [List.length_nil] at hd0
      have : d = 0 := hd0.symm
      subst this
      simp only [pow_zero] at hidx
      omega)
  have h2 := foldProof_sibs H d ls idx 1 idx (by omega) hlen hidx
    (by simp [Nat.mod_eq_of_lt hidx])
  simp only [VerifyProof, merkleProofP]
  rw [if_neg (by omega), h1, h2]
  simp

/-- C3 (amended): whenever the payload fits the hard bound, the modulus is
nonzero, the chunk size plus the largest covered chunk fits the modulus
width (as holds for the protocol's 16-byte chunks with both supported
fields - without this the leaf padding is a negative `make`, a Go panic),
and the designated index is inside the `2^depth` leaves, the hard-bound
builder returns a commitment with exactly `2^depth` leaves whose inclusion
proof verifies against the returned root; the proof is self-verified before
return, so verification of a returned commitment never fails. -/
theorem C3_amended (H : List Nat → List Nat) (payload : List Nat)
    (modulus chunkSize depth proofIndex : Nat)
    (hlen : payload.length ≤ chunkSize * 2 ^ depth)
    (hW : 0 < natBytesLen modulus)
    (hpad : chunkSize + min chunkSize payload.length ≤ natBytesLen modulus)
    (hidx : proofIndex < 2 ^ depth) :
    ∃ root proofSet proofChunk,
      GenerateMerkleTreeWithHardBound H payload modulus chunkSize depth proofIndex
        = .ok (root, proofSet, proofChunk, 2 ^ depth)
      ∧ VerifyProof H (some root) proofSet proofIndex (2 ^ depth) = true := by
  set W := natBytesLen modulus with hWdef
  set g : Nat → List Nat := fun i => (hardBoundLeaf payload chunkSize W i).getD []
    with hg
  have hsome : ∀ i ∈ List.range (2 ^ depth),
      hardBoundLeaf payload chunkSize W i = some (g i) := by
    intro i _
    obtain ⟨l, hl⟩ := hardBoundLeaf_ok payload chunkSize W i hpad
    rw [hl, hg]
    simp [hl]
  have hseq : sequenceOpt
        ((List.range (2 ^ depth)).map (hardBoundLeaf payload chunkSize W))
      = some ((List.range (2 ^ depth)).map g) :=
    sequenceOpt_map _ g _ hsome
  set L := (List.range (2 ^ depth)).map g with hL
  have hLlen : L.length = 2 ^ depth := by simp [hL]
  have hmem : ∀ l ∈ L, l.length = W := by
    intro l hl
    rw [hL] at hl
    obtain ⟨i, hi, rfl⟩ := List.mem_map.mp hl
    exact hardBoundLeaf_len payload chunkSize W i (g i) (hsome i hi)
  have hchunk : chunkify W L.flatten.length L.flatten = L :=
    chunkify_flatten W hW L L.flatten.length hmem le_rfl
  have hpos : (0 : Nat) < 2 ^ depth := Nat.two_pow_pos depth
  obtain ⟨a, as, hcons⟩ : ∃ a as, L = a :: as := by
    cases hLc : L with
    | nil =>
      rw [hLc] at hLlen
      simp only [List.length_nil] at hLlen
      omega
    | cons a as => exact ⟨a, as, rfl⟩
  have hsucc : 2 ^ depth = (2 ^ depth - 1) + 1 := by omega
  have hrootN : merkleRootN H L.length L = merkleRootPd H depth L := by
    rw [hLlen, hsucc]
    simp only [merkleRootN]
    rw [hLlen, log2Nat_pow]
    exact if_pos rfl
  have hproofN : merkleProofN H L.length proofIndex L
      = merkleProofP H depth proofIndex L := by
    rw [hLlen, hsucc]
    simp only [merkleProofN]
    rw [hLlen, log2Nat_pow]
    exact if_pos rfl
  have hbuild : BuildReaderProof H L.flatten W proofIndex
      = (some (merkleRootPd H depth L), merkleProofP H depth proofIndex L,
          2 ^ depth) := by
    simp only [BuildReaderProof, hchunk]
    rw [hcons]
    simp only [← hcons]
    rw [hrootN, hproofN, hLlen]
    rw [if_pos hidx]
  have hverify : VerifyProof H (some (merkleRootPd H depth L))
      (merkleProofP H depth proofIndex L) proofIndex (2 ^ depth) = true :=
    verify_build_perfect H depth proofIndex L hLlen hidx
  refine ⟨merkleRootPd H depth L, merkleProofP H depth proofIndex L,
    hardBoundProofChunk payload chunkSize W proofIndex, ?_, hverify⟩
  simp only [GenerateMerkleTreeWithHardBound]
  rw [if_neg (by omega), ← hWdef, hseq]
  simp only [← hL, hbuild]
  rw [if_neg (by omega), if_neg (by rw [hverify]; simp), if_pos hidx]

/-- C3 (amended) witness: a 1-byte payload, 16-byte chunks, depth 0 and the
BN254 field. -/
theorem C3_amended_witness :
    ([5] : List Nat).length ≤ 16 * 2 ^ 0
    ∧ 0 < natBytesLen ECDSA_CURVE
    ∧ 16 + min 16 ([5] : List Nat).length ≤ natBytesLen ECDSA_CURVE
    ∧ (0 : Nat) < 2 ^ 0
    ∧ ∃ root proofSet proofChunk,
        GenerateMerkleTreeWithHardBound (fun _ => []) [5] ECDSA_CURVE 16 0 0
          = .ok (root, proofSet, proofChunk, 2 ^ 0)
        ∧ VerifyProof (fun _ => []) (some root) proofSet 0 (2 ^ 0) = true :=
  ⟨by decide, by decide, by decide, by decide,
   C3_amended (fun _ => []) [5] ECDSA_CURVE 16 0 0
     (by decide) (by decide) (by decide) (by decide)⟩

/-- C9 witness: the Bool decode equations instantiated at body byte 7. -/
theorem C9_bool_decode_witness :
    Decode [1, 0, 0, 0, 1, 7] = .ok (.bool (7 != 0))
    ∧ (Decode [1, 0, 0, 0, 1, 7] = .ok (.bool true) ↔ (7 : Nat) ≠ 0)
    ∧ Encode (Value.bool true) = [1, 0, 0, 0, 1, 1]
    ∧ Encode (Value.bool false) = [1, 0, 0, 0, 1, 0] :=
  C9_bool_decode 7
